import Mathlib

/-!
Verification of the PyQt6_JsonTextEdit repository against its specification.

The development shallowly embeds the JSON formatter/validator
(`PyQt6_JsonTextEdit/_formatter/__init__.py`), the minifier of the text-edit
integration (`PyQt6_JsonTextEdit/_text_edit.py`), the syntax highlighter
(`PyQt6_JsonTextEdit/_highlighter/__init__.py`) and the document model
(`PyQt6_JsonTextEdit/_model/__init__.py`), together with the parts of the
Python standard library `json` module that those files call
(`json.loads`, `json.dumps`) and the string operations they use
(`str.splitlines`, `str.strip`).

Modeling conventions:
  * Text is `List Char` (`Chars`); `String` appears only at statement
    boundaries through `.data`.
  * Native JSON values are `JValue`.  JSON numbers are modeled as integers;
    float literals (fraction/exponent numerals, `NaN`, `Infinity`) are outside
    the modeled fragment, so the embedded parser rejects them where CPython
    would produce a `float`.  Lone surrogate `\uXXXX` escapes are likewise
    outside the fragment (Lean's `Char` holds only scalar values).
  * Python functions that can raise are embedded as `Except`-valued
    functions; a total function into a plain type models code that cannot
    raise on the modeled input universe.
-/

abbrev Chars := List Char

/-- Native JSON values (Python `dict` / `list` / `str` / `int` / `bool` /
`None`).  Object member order is insertion order and is significant. -/
inductive JValue where
  | null : JValue
  | boolean (b : Bool) : JValue
  | num (n : Int) : JValue
  | str (s : Chars) : JValue
  | arr (xs : List JValue) : JValue
  | obj (kvs : List (Chars × JValue)) : JValue

instance : Inhabited JValue := ⟨JValue.null⟩

/-- Python `dict` insertion: replacing the value at the first occurrence of an
existing key, otherwise appending.  Models `d[k] = v` insertion order. -/
def pyDictInsert : List (Chars × JValue) → Chars → JValue → List (Chars × JValue)
  | [], k, v => [(k, v)]
  | (k0, v0) :: rest, k, v =>
      if k0 = k then (k0, v) :: rest else (k0, v0) :: pyDictInsert rest k v

/-! ### The JSON decoder (`json.loads`) -/

/-- Whitespace skipped by the CPython JSON scanner. -/
def isJsonWs (c : Char) : Bool :=
  c = ' ' || c = '\t' || c = '\n' || c = '\r'

def skipJsonWs (cs : Chars) : Chars := cs.dropWhile isJsonWs

def hexDigitVal (c : Char) : Option Nat :=
  if '0' ≤ c ∧ c ≤ '9' then some (c.toNat - 48)
  else if 'a' ≤ c ∧ c ≤ 'f' then some (c.toNat - 87)
  else if 'A' ≤ c ∧ c ≤ 'F' then some (c.toNat - 55)
  else none

/-- Body of a JSON string literal, after the opening quote: returns the decoded
content and the remaining input after the closing quote.  Escapes follow the
CPython decoder (`strict=True`: raw control characters are rejected); a valid
surrogate pair combines into one scalar, a lone surrogate is outside the
modeled fragment. -/
def parseStringBody : Nat → Chars → Option (Chars × Chars)
  | 0, _ => none
  | _ + 1, [] => none
  | f + 1, c :: r =>
    if c = '"' then some ([], r)
    else if c = '\\' then
      match r with
      | [] => none
      | e :: r2 =>
        let simple : Option Char :=
          if e = '"' then some '"'
          else if e = '\\' then some '\\'
          else if e = '/' then some '/'
          else if e = 'b' then some (Char.ofNat 8)
          else if e = 'f' then some (Char.ofNat 12)
          else if e = 'n' then some '\n'
          else if e = 'r' then some '\r'
          else if e = 't' then some '\t'
          else none
        match simple with
        | some d =>
          match parseStringBody f r2 with
          | some (s, rest) => some (d :: s, rest)
          | none => none
        | none =>
          if e = 'u' then
            match r2 with
            | h1 :: h2 :: h3 :: h4 :: r3 =>
              match hexDigitVal h1, hexDigitVal h2, hexDigitVal h3, hexDigitVal h4 with
              | some a, some b, some c2, some d =>
                let n := a * 4096 + b * 256 + c2 * 16 + d
                if n < 0xd800 ∨ 0xe000 ≤ n then
                  match parseStringBody f r3 with
                  | some (s, rest) => some (Char.ofNat n :: s, rest)
                  | none => none
                else if n < 0xdc00 then
                  -- high surrogate: must be followed by a low surrogate
                  match r3 with
                  | '\\' :: 'u' :: g1 :: g2 :: g3 :: g4 :: r4 =>
                    match hexDigitVal g1, hexDigitVal g2, hexDigitVal g3, hexDigitVal g4 with
                    | some a2, some b2, some c3, some d2 =>
                      let m := a2 * 4096 + b2 * 256 + c3 * 16 + d2
                      if 0xdc00 ≤ m ∧ m < 0xe000 then
                        match parseStringBody f r4 with
                        | some (s, rest) =>
                          some (Char.ofNat (0x10000 + (n - 0xd800) * 0x400 + (m - 0xdc00)) :: s, rest)
                        | none => none
                      else none
                    | _, _, _, _ => none
                  | _ => none
                else none
              | _, _, _, _ => none
            | _ => none
          else none
    else if c.toNat < 0x20 then none
    else
      match parseStringBody f r with
      | some (s, rest) => some (c :: s, rest)
      | none => none

/-- An integer JSON numeral: optional minus, then `0` or a nonzero-led digit
run.  A following `.`, `e` or `E` would make CPython produce a `float`, which
is outside the modeled fragment, so such numerals are rejected here. -/
def parseIntNumber (cs : Chars) : Option (Int × Chars) :=
  let (neg, cs1) : Bool × Chars :=
    match cs with
    | '-' :: r => (true, r)
    | _ => (false, cs)
  let digits := cs1.takeWhile Char.isDigit
  let rest := cs1.dropWhile Char.isDigit
  let intPart : Option (Nat × Chars) :=
    match digits with
    | [] => none
    | '0' :: [] => some (0, rest)
    | '0' :: _ => some (0, (digits.drop 1) ++ rest)
    | _ => some (digits.foldl (fun a c => a * 10 + (c.toNat - 48)) 0, rest)
  match intPart with
  | none => none
  | some (n, r) =>
    match r with
    | '.' :: _ => none
    | 'e' :: _ => none
    | 'E' :: _ => none
    | _ => some (if neg then -(n : Int) else (n : Int), r)

mutual

/-- One JSON value at the head of the input (CPython `json.scanner`). -/
def parseJson : Nat → Chars → Option (JValue × Chars)
  | 0, _ => none
  | f + 1, cs =>
    match cs with
    | 'n' :: 'u' :: 'l' :: 'l' :: r => some (.null, r)
    | 't' :: 'r' :: 'u' :: 'e' :: r => some (.boolean true, r)
    | 'f' :: 'a' :: 'l' :: 's' :: 'e' :: r => some (.boolean false, r)
    | '"' :: r =>
      match parseStringBody (r.length + 1) r with
      | some (s, rest) => some (.str s, rest)
      | none => none
    | '{' :: r =>
      match skipJsonWs r with
      | '}' :: r2 => some (.obj [], r2)
      | r2 => parseMembers f r2 []
    | '[' :: r =>
      match skipJsonWs r with
      | ']' :: r2 => some (.arr [], r2)
      | r2 => parseElements f r2 []
    | _ =>
      match parseIntNumber cs with
      | some (n, rest) => some (.num n, rest)
      | none => none

/-- Object members from the first key onward; `acc` collects members with
Python-`dict` insertion semantics. -/
def parseMembers : Nat → Chars → List (Chars × JValue) → Option (JValue × Chars)
  | 0, _, _ => none
  | f + 1, cs, acc =>
    match cs with
    | '"' :: r =>
      match parseStringBody (r.length + 1) r with
      | none => none
      | some (k, r2) =>
        match skipJsonWs r2 with
        | ':' :: r3 =>
          match parseJson f (skipJsonWs r3) with
          | none => none
          | some (v, r4) =>
            match skipJsonWs r4 with
            | ',' :: r5 => parseMembers f (skipJsonWs r5) (pyDictInsert acc k v)
            | '}' :: r5 => some (.obj (pyDictInsert acc k v), r5)
            | _ => none
        | _ => none
    | _ => none

/-- Array elements from the first element onward. -/
def parseElements : Nat → Chars → List JValue → Option (JValue × Chars)
  | 0, _, _ => none
  | f + 1, cs, acc =>
    match parseJson f cs with
    | none => none
    | some (v, r) =>
      match skipJsonWs r with
      | ',' :: r2 => parseElements f (skipJsonWs r2) (acc ++ [v])
      | ']' :: r2 => some (.arr (acc ++ [v]), r2)
      | _ => none

end

/-- Model of `json.loads` on the modeled fragment: a single document surrounded by
optional whitespace; anything further is "Extra data" (failure). -/
def jsonLoadsCs (cs : Chars) : Option JValue :=
  match parseJson (cs.length + 1) (skipJsonWs cs) with
  | some (v, rest) => if skipJsonWs rest = [] then some v else none
  | none => none

def jsonLoads (s : String) : Option JValue := jsonLoadsCs s.data

/-! ### The JSON encoder (`json.dumps`, `ensure_ascii=True`) -/

def hexDigitChar (n : Nat) : Char :=
  if n < 10 then Char.ofNat (48 + n) else Char.ofNat (87 + n)

def hex4 (n : Nat) : Chars :=
  [hexDigitChar (n / 4096 % 16), hexDigitChar (n / 256 % 16),
   hexDigitChar (n / 16 % 16), hexDigitChar (n % 16)]

/-- ASCII-escaping of one character (CPython `py_encode_basestring_ascii`). -/
def escapeChar (c : Char) : Chars :=
  if c = '"' then ['\\', '"']
  else if c = '\\' then ['\\', '\\']
  else if c = '\n' then ['\\', 'n']
  else if c = '\r' then ['\\', 'r']
  else if c = '\t' then ['\\', 't']
  else if c.toNat = 8 then ['\\', 'b']
  else if c.toNat = 12 then ['\\', 'f']
  else if c.toNat < 0x20 then '\\' :: 'u' :: hex4 c.toNat
  else if c.toNat ≤ 0x7e then [c]
  else if c.toNat < 0x10000 then '\\' :: 'u' :: hex4 c.toNat
  else
    ('\\' :: 'u' :: hex4 (0xd800 + (c.toNat - 0x10000) / 0x400)) ++
    ('\\' :: 'u' :: hex4 (0xdc00 + (c.toNat - 0x10000) % 0x400))

def encodeStringBody : Chars → Chars
  | [] => []
  | c :: r => escapeChar c ++ encodeStringBody r

/-- A JSON string literal for `s`, quotes included. -/
def encodeString (s : Chars) : Chars := '"' :: encodeStringBody s ++ ['"']

/-- Decimal digits of a natural number (fuel-structural so that the kernel can
evaluate it). -/
def natDigitsAux : Nat → Nat → Chars
  | 0, _ => []
  | f + 1, n =>
    if n < 10 then [Char.ofNat (48 + n)]
    else natDigitsAux f (n / 10) ++ [Char.ofNat (48 + n % 10)]

/-- Python `repr` of an `int`. -/
def intToken (n : Int) : Chars :=
  if n < 0 then '-' :: natDigitsAux n.natAbs n.natAbs else natDigitsAux (n.toNat + 1) n.toNat

/-- The newline-plus-indent block emitted between items when an indent is
configured; nothing when `indent=None`. -/
def nlIndent (w : Option Nat) (d : Nat) : Chars :=
  match w with
  | none => []
  | some n => '\n' :: List.replicate (n * d) ' '

mutual

/-- Model of `json.dumps` for one value at depth `d`, with indent `w` and separators
`(isep, ksep)` (CPython `json.encoder._make_iterencode`). -/
def dumpJson (w : Option Nat) (isep ksep : Chars) (d : Nat) : JValue → Chars
  | .null => ['n', 'u', 'l', 'l']
  | .boolean true => ['t', 'r', 'u', 'e']
  | .boolean false => ['f', 'a', 'l', 's', 'e']
  | .num n => intToken n
  | .str s => encodeString s
  | .arr [] => ['[', ']']
  | .arr (x :: xs) =>
      '[' :: nlIndent w (d + 1) ++ dumpElems w isep ksep (d + 1) (x :: xs) ++
        nlIndent w d ++ [']']
  | .obj [] => ['{', '}']
  | .obj (kv :: kvs) =>
      '{' :: nlIndent w (d + 1) ++ dumpMembers w isep ksep (d + 1) (kv :: kvs) ++
        nlIndent w d ++ ['}']

/-- The comma-and-newline separated item list of a nonempty array. -/
def dumpElems (w : Option Nat) (isep ksep : Chars) (d : Nat) : List JValue → Chars
  | [] => []
  | [x] => dumpJson w isep ksep d x
  | x :: y :: ys =>
      dumpJson w isep ksep d x ++ isep ++ nlIndent w d ++
        dumpElems w isep ksep d (y :: ys)

/-- The member list of a nonempty object: `"key"` + key separator + value. -/
def dumpMembers (w : Option Nat) (isep ksep : Chars) (d : Nat) :
    List (Chars × JValue) → Chars
  | [] => []
  | [(k, v)] => encodeString k ++ ksep ++ dumpJson w isep ksep d v
  | (k, v) :: kv :: kvs =>
      encodeString k ++ ksep ++ dumpJson w isep ksep d v ++ isep ++ nlIndent w d ++
        dumpMembers w isep ksep d (kv :: kvs)

end

/-- Model of `json.dumps(value)` with all defaults: no indent, separators `", "`, `": "`. -/
def pyDumpsDefault (v : JValue) : Chars :=
  dumpJson none [',', ' '] [':', ' '] 0 v

/-- Default separators chosen by `json.dumps` when none are passed: compact
item separator once an indent is given. -/
def defaultSeps (w : Option Nat) : Chars × Chars :=
  match w with
  | none => ([',', ' '], [':', ' '])
  | some _ => ([','], [':', ' '])

/-- Model of `json.dumps(value, indent=…, separators=…)` as invoked by the formatter:
a negative indent is treated as zero, like CPython's `' ' * indent`. -/
def pyDumpsKw (indent : Option Int) (seps : Option (Chars × Chars)) (v : JValue) : Chars :=
  let w : Option Nat := indent.map Int.toNat
  let sk := seps.getD (defaultSeps w)
  dumpJson w sk.1 sk.2 0 v

/-! ### The formatter (`QJsonFormatter` in `_formatter/__init__.py`) -/

/-- Model of `QJsonFormatter.isValid`.  The input universe is a text string or a native
JSON value; `JValue.null` is Python `None` (caught by `value is None`), and a
top-level string is text to decode (`value == ""` catches the empty string).
Non-string inputs are first serialized with `json.dumps(value)`.  The
function is total: the `ValueError` of a failed decode is caught inside. -/
def isValidJ (policy : Bool) (value : JValue) : Bool :=
  match value with
  | .null => policy
  | .str [] => policy
  | .str s => (jsonLoadsCs s).isSome
  | v => (jsonLoadsCs (pyDumpsDefault v)).isSome

/-- The exceptions `QJsonFormatter.format` can raise:
`JsonFormattingException` (decode failure, carrying the message and the raw
text; the line/column/offset fields extracted from the `JSONDecodeError` are
not modeled) and the generic `JsonFormatterException`. -/
inductive FormatterErr where
  | formatting (message : Chars) (text : Chars)
  | generic (message : Chars)
deriving DecidableEq

/-- Model of `QJsonFormatter.format(value, **kwargs)`.  `indentation` is the stored
`_indentation` (always injected as `kwargs["indent"]` since the repository's
callers never pass `indent` themselves); `seps` is the optional `separators`
keyword.  An input that fails `isValid` falls through to `return None`;
a string input that passes `isValid` yet fails `json.loads` raises
`JsonFormattingException` (only possible for the empty string under a
permissive empty policy, since `isValid` already decoded every other string). -/
def formatJ (policy : Bool) (indentation : Int) (seps : Option (Chars × Chars))
    (value : JValue) : Except FormatterErr (Option Chars) :=
  if isValidJ policy value then
    match value with
    | .str s =>
      match jsonLoadsCs s with
      | some v => .ok (some (pyDumpsKw (some indentation) seps v))
      | none => .error (.formatting "Invalid JSON input".data s)
    | v => .ok (some (pyDumpsKw (some indentation) seps v))
  else
    .ok none

/-! ### Python string utilities used by `QJsonTextEdit.minifiedJson` -/

/-- Python whitespace as stripped by `str.strip()` (the ASCII fragment; the
strings this is applied to are `json.dumps` output, which is pure ASCII). -/
def isPySpace (c : Char) : Bool :=
  c = ' ' || c = '\t' || c = '\n' || c = '\r' || c.toNat = 11 || c.toNat = 12

/-- Python `str.strip()`: leading and trailing whitespace removed. -/
def pyStrip (cs : Chars) : Chars :=
  ((cs.dropWhile isPySpace).reverse.dropWhile isPySpace).reverse

/-- Python `str.splitlines()` for the line boundaries `\n`, `\r\n` and `\r` (the only
ones that can occur in `json.dumps` output, where every control and non-ASCII
character is escaped). -/
def pySplitlines : Chars → List Chars
  | [] => []
  | c :: r =>
    if c = '\n' then [] :: pySplitlines r
    else if c = '\r' then
      match r with
      | [] => [[]]
      | d :: r2 => if d = '\n' then [] :: pySplitlines r2 else [] :: pySplitlines (d :: r2)
    else
      match pySplitlines r with
      | [] => [[c]]
      | l :: ls => (c :: l) :: ls

/-- Python `''.join(...)`. -/
def joinAll : List Chars → Chars
  | [] => []
  | l :: ls => l ++ joinAll ls

/-- The exceptions observable from `QJsonTextEdit.minifiedJson`:
`AttributeError` when `format` returned `None` and `.splitlines()` is called
on it, and any re-raised non-`JsonFormattingException` failure. -/
inductive MinifyErr where
  | attributeError
  | reRaised (message : Chars)
deriving DecidableEq

/-- Model of `QJsonTextEdit.minifiedJson` (`_text_edit.py`): format the buffer text with
compact separators `(',', ':')` (the stored indent, default 2, is still
injected by `format`), split the result into lines, strip each line and
concatenate.  A `JsonFormattingException` is caught and turned into `None`;
any other exception is re-raised after the error signal. -/
def minifiedJson (policy : Bool) (indentation : Int) (text : Chars) :
    Except MinifyErr (Option Chars) :=
  match formatJ policy indentation (some ([','], [':'])) (.str text) with
  | .ok (some body) => .ok (some (joinAll ((pySplitlines body).map pyStrip)))
  | .ok none => .error .attributeError
  | .error (.formatting _ _) => .ok none
  | .error (.generic m) => .error (.reRaised m)

/-! ### Streaming model of the strip-and-join pipeline

`joinAll ∘ List.map pyStrip ∘ pySplitlines` is re-expressed as a single
left-to-right scan (`mLead`) so that it composes under list append; the
equivalence is proved below (`pipeline_eq_mLead`). -/

/-- Line-break characters recognized by `pySplitlines`. -/
def isNlChar (c : Char) : Bool := c = '\n' || c = '\r'

mutual

/-- Scan state "at the start of a line": line breaks and leading whitespace
are dropped. -/
def mLead : Chars → Chars
  | [] => []
  | c :: r => if isNlChar c then mLead r else if isPySpace c then mLead r else c :: mCopy r

/-- Scan state "inside a line, nothing pending": characters are copied; a
whitespace run is buffered until it turns out not to be trailing. -/
def mCopy : Chars → Chars
  | [] => []
  | c :: r => if isNlChar c then mLead r else if isPySpace c then mPend [c] r else c :: mCopy r

/-- Scan state "inside a line with a pending whitespace run `buf`": the run is
emitted only if more non-whitespace follows on the same line. -/
def mPend (buf : Chars) : Chars → Chars
  | [] => []
  | c :: r =>
    if isNlChar c then mLead r
    else if isPySpace c then mPend (buf ++ [c]) r
    else buf ++ c :: mCopy r

end

/-- No newline character occurs. -/
def noNewline (cs : Chars) : Bool := cs.all (· ≠ '\n')

/-- A two-state scanner over JSON text: tracks whether the position is inside
a string literal (backslash escapes consume the next character) and fails on
whitespace encountered outside all string literals.  Returns the final
in-string state on success. -/
def scanStruct : Bool → Chars → Option Bool
  | st, [] => some st
  | false, c :: r =>
    if isPySpace c then none
    else if c = '"' then scanStruct true r
    else scanStruct false r
  | true, c :: r =>
    if c = '\\' then
      match r with
      | [] => some true
      | _ :: r2 => scanStruct true r2
    else if c = '"' then scanStruct false r
    else scanStruct true r

/-- No structural whitespace: every whitespace character lies inside a
string literal. -/
def noStructuralWs (cs : Chars) : Bool := (scanStruct false cs).isSome

example : minifiedJson true 2 " \x7b \"a\" : 1 \x7d ".data = .ok (some "\x7b\"a\":1\x7d".data) := rfl
example : mLead "\x7b\n  \"a\":1\n\x7d".data = "\x7b\"a\":1\x7d".data := rfl
example : noStructuralWs "\x7b\"a b\":1\x7d".data = true := rfl
example : noStructuralWs "\x7b\"a\": 1\x7d".data = false := rfl

/-! ### The document model (`QJsonModel` in `_model/__init__.py`) -/

/-- The Python runtime type stored in a `TreeItem`'s `value_type` field;
`to_json` dispatches on `value_type is dict` / `value_type is list`. -/
inductive PyType where
  | dict
  | list
  | str
  | int
  | boolean
  | noneType
deriving DecidableEq

/-- One node of the document tree.  `key` and `value` hold arbitrary Python
values (here: native JSON values, with `JValue.null` for Python `None`);
`value_type` caches the runtime type of the represented value; `children` is
the ordered child list.  The child→parent back-reference is not represented:
it never influences `to_json` or `setData`. -/
inductive TreeItem where
  | mk (key : JValue) (value : JValue) (value_type : PyType) (children : List TreeItem)

def TreeItem.key : TreeItem → JValue
  | .mk k _ _ _ => k

def TreeItem.value : TreeItem → JValue
  | .mk _ v _ _ => v

def TreeItem.value_type : TreeItem → PyType
  | .mk _ _ t _ => t

def TreeItem.children : TreeItem → List TreeItem
  | .mk _ _ _ cs => cs

/-- The `value_type` of a scalar native value. -/
def scalarType : JValue → PyType
  | .null => .noneType
  | .boolean _ => .boolean
  | .num _ => .int
  | .str _ => .str
  | .arr _ => .list
  | .obj _ => .dict

mutual

/-- Modelled from the spec: `TreeItem.parse` (the file
`_model/tree_item.py` is not part of the sources; only `_model/__init__.py`,
which calls it, is).  Per spec §4.3: an object becomes a node with one child
per property in insertion order, each child carrying the property name as its
`key` and recursing on the property value; an array becomes a node with one
child per element, `key` null; a scalar becomes a leaf with `value` and
`value_type` set and no children. -/
def TreeItem.parse : JValue → TreeItem
  | .obj kvs => .mk .null .null .dict (TreeItem.parseMembers kvs)
  | .arr xs => .mk .null .null .list (TreeItem.parseElems xs)
  | v => .mk .null v (scalarType v) []

def TreeItem.parseMembers : List (Chars × JValue) → List TreeItem
  | [] => []
  | (k, v) :: kvs =>
    (match TreeItem.parse v with
     | .mk _ pv pt pcs => TreeItem.mk (.str k) pv pt pcs) :: TreeItem.parseMembers kvs

def TreeItem.parseElems : List JValue → List TreeItem
  | [] => []
  | v :: vs => TreeItem.parse v :: TreeItem.parseElems vs

end

/-- The Python `dict` key used by `to_json`'s comprehension.  Children of
object nodes built by `parse` always carry a string key, so the fallback for
a non-string key is never reached on parse-produced trees. -/
def pyKeyOf : JValue → Chars
  | .str s => s
  | _ => []

/-- Folding a member list through Python `dict` construction, as the dict
comprehension `{ch.key: … for ch in item._children}` does. -/
def pyDictOfAux (acc : List (Chars × JValue)) : List (Chars × JValue) → List (Chars × JValue)
  | [] => acc
  | (k, v) :: rest => pyDictOfAux (pyDictInsert acc k v) rest

def pyDictOf (kvs : List (Chars × JValue)) : List (Chars × JValue) :=
  pyDictOfAux [] kvs

mutual

/-- Model of `QJsonModel.to_json`: an object node rebuilds a mapping from each child's
`key`, an array node a sequence, and any other node returns its stored
`value`. -/
def toJson : TreeItem → JValue
  | .mk _ v t cs =>
    match t with
    | .dict => .obj (pyDictOf (toJsonMembers cs))
    | .list => .arr (toJsonElems cs)
    | _ => v

def toJsonMembers : List TreeItem → List (Chars × JValue)
  | [] => []
  | c :: cs => (pyKeyOf c.key, toJson c) :: toJsonMembers cs

def toJsonElems : List TreeItem → List JValue
  | [] => []
  | c :: cs => toJson c :: toJsonElems cs

end

mutual

/-- Well-formedness of a native value as produced by Python: object property
names are pairwise distinct at every level (a Python `dict` cannot hold
duplicate keys). -/
def wfJson : JValue → Bool
  | .obj kvs => decide (kvs.map Prod.fst).Nodup && wfJsonMembers kvs
  | .arr xs => wfJsonElems xs
  | _ => true

def wfJsonMembers : List (Chars × JValue) → Bool
  | [] => true
  | (_, v) :: kvs => wfJson v && wfJsonMembers kvs

def wfJsonElems : List JValue → Bool
  | [] => true
  | v :: vs => wfJson v && wfJsonElems vs

end

/-- Replace the `i`-th entry of a list by `f` applied to it. -/
def modifyIdx (f : TreeItem → TreeItem) : Nat → List TreeItem → List TreeItem
  | _, [] => []
  | 0, c :: cs => f c :: cs
  | i + 1, c :: cs => c :: modifyIdx f i cs

/-- Apply `f` to the node reached from `root` by the child-row path `p`. -/
def modifyAt (f : TreeItem → TreeItem) : TreeItem → List Nat → TreeItem
  | t, [] => f t
  | .mk k v ty cs, i :: p => .mk k v ty (modifyIdx (fun c => modifyAt f c p) i cs)

def TreeItem.withKey (k : JValue) : TreeItem → TreeItem
  | .mk _ v t cs => .mk k v t cs

def TreeItem.withValue (v : JValue) : TreeItem → TreeItem
  | .mk k _ t cs => .mk k v t cs

/-- The only error type the spec assigns to tree mutation; the Python sources
define no such class and `setData` contains no `raise`, so the embedded
`setData` never produces it. -/
inductive ModelErr where
  | modelError
deriving DecidableEq

/-- A `QModelIndex` as far as `setData` observes it: `none` is the invalid
index; a valid index is the row path from the root to the node (the
`internalPointer`) together with the column. -/
abbrev ModelIndex := Option (List Nat × Nat)

/-- Model of `QJsonModel.setData`: an invalid index returns `False`; column 0 assigns
the node's `key`, column 1 its `value` (followed by a `dataChanged` signal,
not modeled); any other column returns `False`.  The returned pair is the
Python return value and the tree after the call; the `Except` layer records
that the function body contains no `raise`. -/
def setData (root : TreeItem) (index : ModelIndex) (value : JValue) :
    Except ModelErr (Bool × TreeItem) :=
  match index with
  | none => .ok (false, root)
  | some (p, 0) => .ok (true, modifyAt (TreeItem.withKey value) root p)
  | some (p, 1) => .ok (true, modifyAt (TreeItem.withValue value) root p)
  | some _ => .ok (false, root)

/-! ### Formatter configuration (`QJsonFormatter.setIndentation`) -/

/-- A Python argument as `isinstance(…, int)` classifies it. -/
inductive PyIntArg where
  | int (n : Int)
  | notInt
deriving DecidableEq

inductive IndentationErr where
  | typeError
deriving DecidableEq

/-- Model of `QJsonFormatter.setIndentation`: rejects non-`int` arguments with
`IndentationTypeException` and otherwise stores the argument verbatim — the
function performs no range check.  Returns the new stored `_indentation`. -/
def setIndentation : PyIntArg → Except IndentationErr Int
  | .int n => .ok n
  | .notInt => .error .typeError

/-! ### The syntax highlighter (`QJsonHighlighter` in `_highlighter/__init__.py`)

Each entry of `self._rules` is modeled by a dedicated matcher for its regular
expression; `highlightBlock` iterates the rules in the order they were added
and calls `setFormat` for every global match, so a later rule overwrites the
format of an earlier one on overlapping spans. -/

/-- The semantic categories, one per character format built in `__init__`. -/
inductive HlCat where
  | brace
  | quote
  | separator
  | key
  | datetime
  | date
  | upper
  | string
  | number
  | literal
deriving DecidableEq

/-- A matcher: given the reversed text before the candidate position and the
text from it, an attempted match returns
`(whole match length, group offset, group length)`. -/
abbrev TryFn := Chars → Chars → Option (Nat × Nat × Nat)

/-- Content length of `(?:\\.|[^"\\])*` up to a closing quote, scanning from
just after the opening quote; `none` when no closing quote is reachable. -/
def genericStrLen : Chars → Option Nat
  | [] => none
  | '"' :: _ => some 0
  | '\\' :: [] => none
  | '\\' :: _ :: r =>
    match genericStrLen r with
    | some n => some (n + 2)
    | none => none
  | _ :: r =>
    match genericStrLen r with
    | some n => some (n + 1)
    | none => none

/-- The lookahead `(?=\s*:)` of the key rule. -/
def lookaheadColon (cs : Chars) : Bool :=
  match cs.dropWhile isPySpace with
  | c :: _ => c = ':'
  | [] => false

/-- The lookahead `(?=\s*[,}\]])` of the value rules. -/
def lookaheadValueEnd (cs : Chars) : Bool :=
  match cs.dropWhile isPySpace with
  | c :: _ => c = ',' || c = '}' || c = ']'
  | [] => false

/-- The lookbehind `(?<=:)` (and, for the second pattern of each value rule,
`(?<=: )`). -/
def lookbehindColon (withSpace : Bool) (rev : Chars) : Bool :=
  if withSpace then
    match rev with
    | ' ' :: ':' :: _ => true
    | _ => false
  else
    match rev with
    | ':' :: _ => true
    | _ => false

/-- Exactly `k` decimal digits. -/
def chompDigits : Nat → Chars → Option Chars
  | 0, cs => some cs
  | _ + 1, [] => none
  | k + 1, c :: r => if c.isDigit then chompDigits k r else none

def chompChar (c : Char) : Chars → Option Chars
  | d :: r => if d = c then some r else none
  | [] => none

/-- Full match of the datetime core
`\d{4}-\d{2}-\d{2}T\d{2}:\d{2}:\d{2}(?:\.\d+)?(?:Z|[+\-]\d{2}:\d{2})?`
against the whole content. -/
def isDatetimeCore (cs : Chars) : Bool :=
  let base : Option Chars := do
    let r ← chompDigits 4 cs
    let r ← chompChar '-' r
    let r ← chompDigits 2 r
    let r ← chompChar '-' r
    let r ← chompDigits 2 r
    let r ← chompChar 'T' r
    let r ← chompDigits 2 r
    let r ← chompChar ':' r
    let r ← chompDigits 2 r
    let r ← chompChar ':' r
    chompDigits 2 r
  match base with
  | none => false
  | some r =>
    let afterFrac : Chars :=
      match r with
      | '.' :: r2 =>
        if (r2.takeWhile Char.isDigit).length = 0 then '.' :: r2
        else r2.dropWhile Char.isDigit
      | _ => r
    -- a fraction with no digits cannot match; the dot then stays and fails below
    match afterFrac with
    | [] => true
    | ['Z'] => true
    | s :: rest =>
      if s = '+' || s = '-' then
        (match do
          let r2 ← chompDigits 2 rest
          let r2 ← chompChar ':' r2
          chompDigits 2 r2 with
        | some [] => true
        | _ => false)
      else false

/-- Full match of the date core `\d{4}-\d{2}-\d{2}`. -/
def isDateCore (cs : Chars) : Bool :=
  match do
    let r ← chompDigits 4 cs
    let r ← chompChar '-' r
    let r ← chompDigits 2 r
    let r ← chompChar '-' r
    chompDigits 2 r with
  | some [] => true
  | _ => false

/-- Full match of the uppercase-constant core `[A-Z0-9_]{2,}`. -/
def isUpperCore (cs : Chars) : Bool :=
  2 ≤ cs.length && cs.all fun c => ('A' ≤ c && c ≤ 'Z') || c.isDigit || c = '_'

/-- A value rule `(?<=:)"(core)"(?=\s*[,}\]])` (or with lookbehind `: `):
the group is the quoted content.  The core classes cannot consume a quote,
so the content is everything up to the first quote. -/
def tryValueCore (core : Chars → Bool) (withSpace : Bool) : TryFn := fun rev suf =>
  match suf with
  | '"' :: r =>
    if lookbehindColon withSpace rev then
      let content := r.takeWhile (· ≠ '"')
      match r.drop content.length with
      | '"' :: rest =>
        if core content && lookaheadValueEnd rest then
          some (content.length + 2, 1, content.length)
        else none
      | _ => none
    else none
  | _ => none

/-- The generic-string value rule `(?<=:)"((?:\\.|[^"\\])*)"(?=\s*[,}\]])`. -/
def tryGenericString (withSpace : Bool) : TryFn := fun rev suf =>
  match suf with
  | '"' :: r =>
    if lookbehindColon withSpace rev then
      match genericStrLen r with
      | some n =>
        if lookaheadValueEnd (r.drop (n + 1)) then some (n + 2, 1, n) else none
      | none => none
    else none
  | _ => none

/-- The key rule `"(?:\\.|[^"\\])*"(?=\s*:)`; group 0, quotes included. -/
def tryKey : TryFn := fun _ suf =>
  match suf with
  | '"' :: r =>
    match genericStrLen r with
    | some n =>
      if lookaheadColon (r.drop (n + 1)) then some (n + 2, 0, n + 2) else none
    | none => none
  | _ => none

/-- A single-character class rule such as `[\{\}\[\]]`, `"` or `[,:]`. -/
def tryCharClass (cls : List Char) : TryFn := fun _ suf =>
  match suf with
  | c :: _ => if cls.contains c then some (1, 0, 1) else none
  | [] => none

def isWordChar (c : Char) : Bool := c.isAlpha || c.isDigit || c = '_'

/-- The assertion `\b` between the reversed prefix and the character `c` at the position. -/
def boundaryBefore (rev : Chars) (c : Char) : Bool :=
  match rev with
  | [] => isWordChar c
  | p :: _ => isWordChar p != isWordChar c

/-- The assertion `\b` after a match whose last character is `last`, `suf` following. -/
def boundaryAfter (last : Char) (suf : Chars) : Bool :=
  match suf with
  | [] => isWordChar last
  | c :: _ => isWordChar last != isWordChar c

/-- Candidate consumed lengths for `(?:[eE][+-]?\d+)?` in the regex engine's
preference order (present with the longest digit run first, then absent). -/
def expCands (cs : Chars) : List Nat :=
  match cs with
  | e :: r2 =>
    if e = 'e' || e = 'E' then
      let (sgnLen, r3) :=
        match r2 with
        | s :: r3 => if s = '+' || s = '-' then (1, r3) else (0, r2)
        | [] => (0, r2)
      let ed := (r3.takeWhile Char.isDigit).length
      ((List.range ed).reverse.map fun k => 1 + sgnLen + k + 1) ++ [0]
    else [0]
  | [] => [0]

/-- Candidate consumed lengths for `(?:\.\d+)?(?:[eE][+-]?\d+)?`. -/
def fracExpCands (cs : Chars) : List Nat :=
  match cs with
  | '.' :: r2 =>
    let fd := (r2.takeWhile Char.isDigit).length
    (((List.range fd).reverse.map fun k => k + 1).flatMap fun fl =>
      (expCands (r2.drop fl)).map fun el => 1 + fl + el) ++ expCands cs
  | _ => expCands cs

/-- The number rule `\b-?\d+(?:\.\d+)?(?:[eE][+-]?\d+)?\b`: backtracking is
modeled by enumerating candidate match lengths in the engine's preference
order and taking the first whose trailing `\b` holds. -/
def tryNumber : TryFn := fun rev suf =>
  match suf with
  | c :: _ =>
    if boundaryBefore rev c then
      let sgnLen := if c = '-' then 1 else 0
      let afterSign := suf.drop sgnLen
      let di := (afterSign.takeWhile Char.isDigit).length
      if di = 0 then none
      else
        let cands := ((List.range di).reverse.map fun k => k + 1).flatMap fun il =>
          (fracExpCands (afterSign.drop il)).map fun fe => sgnLen + il + fe
        let ok := cands.filter fun total =>
          match suf.drop (total - 1) with
          | last :: after => boundaryAfter last after
          | [] => false
        match ok with
        | total :: _ => some (total, 0, total)
        | [] => none
    else none
  | [] => none

/-- Case-insensitive literal word match. -/
def chompWordCI : Chars → Chars → Option Chars
  | [], cs => some cs
  | _ :: _, [] => none
  | w :: ws, c :: cs => if c.toLower = w then chompWordCI ws cs else none

/-- The literal rule `\b(?:true|false|null)\b` with `CaseInsensitiveOption`. -/
def tryLiteralWord : TryFn := fun rev suf =>
  match suf with
  | c :: _ =>
    if boundaryBefore rev c then
      let attempt : Chars → Option Nat := fun w =>
        match chompWordCI w suf with
        | some rest =>
          match suf.drop (w.length - 1) with
          | last :: _ => if boundaryAfter last rest then some w.length else none
          | [] => none
        | none => none
      match attempt "true".data with
      | some n => some (n, 0, n)
      | none =>
        match attempt "false".data with
        | some n => some (n, 0, n)
        | none =>
          match attempt "null".data with
          | some n => some (n, 0, n)
          | none => none
    else none
  | [] => none

/-- Global matching (`QRegularExpression.globalMatch`): leftmost matches,
resuming after each whole match.  Returns the group spans as
`(absolute start, length)`. -/
def scanGlobal (t : TryFn) : Nat → Chars → Chars → Nat → List (Nat × Nat)
  | 0, _, _, _ => []
  | _ + 1, _, [], _ => []
  | f + 1, rev, c :: rest, p =>
    match t rev (c :: rest) with
    | some (ml, go, gl) =>
      (p + go, gl) :: scanGlobal t f (((c :: rest).take ml).reverse ++ rev) ((c :: rest).drop ml) (p + ml)
    | none => scanGlobal t f (c :: rev) rest (p + 1)

/-- A formatted span as produced by one `setFormat` call. -/
structure HlSpan where
  start : Nat
  len : Nat
  cat : HlCat
deriving DecidableEq

/-- The rule table in the exact order the constructor adds the rules. -/
def hlRules : List (TryFn × HlCat) :=
  [ (tryCharClass ['{', '}', '[', ']'], .brace),
    (tryCharClass ['"'], .quote),
    (tryCharClass [',', ':'], .separator),
    (tryKey, .key),
    (tryValueCore isDatetimeCore false, .datetime),
    (tryValueCore isDatetimeCore true, .datetime),
    (tryValueCore isDateCore false, .date),
    (tryValueCore isDateCore true, .date),
    (tryValueCore isUpperCore false, .upper),
    (tryValueCore isUpperCore true, .upper),
    (tryGenericString false, .string),
    (tryGenericString true, .string),
    (tryNumber, .number),
    (tryLiteralWord, .literal) ]

/-- All `setFormat` calls of one `highlightBlock` run, in execution order. -/
def spansOfRules : List (TryFn × HlCat) → Chars → List HlSpan
  | [], _ => []
  | (t, c) :: rs, cs =>
    ((scanGlobal t (cs.length + 1) [] cs 0).map fun sl => HlSpan.mk sl.1 sl.2 c) ++
      spansOfRules rs cs

/-- The final format at position `i`: the last `setFormat` call covering `i`
wins; calls with an empty group are skipped (`length > 0` in the source). -/
def catAt (spans : List HlSpan) (i : Nat) : Option HlCat :=
  spans.foldl
    (fun acc sp => if 0 < sp.len && sp.start ≤ i && i < sp.start + sp.len then some sp.cat else acc)
    none

/-- The final per-position category assignment of `highlightBlock` on one
line of text. -/
def highlightLine (cs : Chars) : List (Option HlCat) :=
  (List.range cs.length).map (catAt (spansOfRules hlRules cs))

mutual

/-- Maximal runs of equal category: the tokens a renderer observes. -/
def runsFrom : Nat → List (Option HlCat) → List HlSpan
  | _, [] => []
  | i, none :: r => runsFrom (i + 1) r
  | i, some c :: r => runExtend i c 1 r

/-- Extends the current run, which started at `start` with category `c` and
has reached `len` positions. -/
def runExtend (start : Nat) (c : HlCat) (len : Nat) : List (Option HlCat) → List HlSpan
  | [] => [HlSpan.mk start len c]
  | none :: r => HlSpan.mk start len c :: runsFrom (start + len + 1) r
  | some c2 :: r =>
    if c2 = c then runExtend start c (len + 1) r
    else HlSpan.mk start len c :: runExtend (start + len) c2 1 r

end

def tokensOfLine (cs : Chars) : List HlSpan := runsFrom 0 (highlightLine cs)

/-! ### Auxiliary predicates used in statements -/

/-- A native value that is neither Python `None` nor a string: `isValid`
serializes these with `json.dumps` before decoding. -/
def isOtherValue : JValue → Bool
  | .null => false
  | .str _ => false
  | _ => true

/-! ### Auxiliary functions for reasoning about the minify pipeline -/

/-- Trailing whitespace removed (the right half of `str.strip()`). -/
def stripEnd (cs : Chars) : Chars := (cs.reverse.dropWhile isPySpace).reverse

/-- The first line of a text: everything before the first line break. -/
def lineHead (cs : Chars) : Chars := cs.takeWhile fun c => !isNlChar c

/-- Everything after the first line break (`\r\n` counting as one break);
`[]` when there is none. -/
def lineRest : Chars → Chars
  | [] => []
  | c :: r =>
    if c = '\n' then r
    else if c = '\r' then
      match r with
      | [] => []
      | d :: r2 => if d = '\n' then r2 else d :: r2
    else lineRest r

/-- The split-strip-join pipeline of `minifiedJson`, as one function. -/
def pipelineOf (cs : Chars) : Chars := joinAll ((pySplitlines cs).map pyStrip)

/-- No line-break character occurs. -/
def noBreakChars (cs : Chars) : Bool := cs.all fun c => !isNlChar c

/-- The last character, if any, is not whitespace. -/
def endsNonspace : Chars → Bool
  | [] => true
  | [c] => !isPySpace c
  | _ :: r => endsNonspace r

/-- Nonempty and starting with a plain (non-whitespace, non-break)
character. -/
def headNonspace : Chars → Bool
  | [] => false
  | c :: _ => !isPySpace c && !isNlChar c

/-- The demo document from `main.py`, used as a concrete witness value. -/
def demoJson : JValue :=
  .obj [
    ("name".data, .str "Alice".data),
    ("age".data, .num 30),
    ("admin".data, .boolean true),
    ("roles".data, .arr [.str "editor".data, .str "moderator".data]),
    ("registered".data, .str "2023-04-01T12:00:00Z".data),
    ("preferences".data, .obj [
      ("notifications".data, .boolean true),
      ("theme".data, .str "dark".data),
      ("flags".data, .arr [
        .obj [("type".data, .str "email".data), ("enabled".data, .boolean true)],
        .obj [("type".data, .str "sms".data), ("enabled".data, .boolean false)]])])]

example : jsonLoads "\x7b\"a\": 1\x7d" = some (.obj [(['a'], .num 1)]) := rfl
example : jsonLoads "" = none := rfl
example : jsonLoads "\x7binvalid" = none := rfl
example : isValidJ true (.str "\x7binvalid".data) = false := rfl
example : formatJ true 2 none (.str "[1, 2]".data) = .ok (some "[\n  1,\n  2\n]".data) := rfl

/-! ## Theorems for the claims -/

/-- Claim C3: for every input on which `isValid` returns false, `format`
returns the sentinel `None` (no text produced) without raising, whatever
keyword arguments were supplied: the body of `format` is guarded by the
`isValid` check and falls through to `return None`. -/
theorem c3_invalid_input_formats_to_none (policy : Bool) (indentation : Int)
    (seps : Option (Chars × Chars)) (value : JValue)
    (h : isValidJ policy value = false) :
    formatJ policy indentation seps value = .ok none := by
  unfold formatJ
  rw [h]
  rfl

/-- Witness for C3 at the concrete invalid input `"[1, 2"`. -/
theorem c3_witness :
    isValidJ true (.str "[1, 2".data) = false ∧
    formatJ true 2 none (.str "[1, 2".data) = .ok none :=
  ⟨rfl, c3_invalid_input_formats_to_none true 2 none (.str "[1, 2".data) rfl⟩

/-- Claim C2, counterexample: `format("{invalid")` does not raise at all — it
returns the sentinel `None`, because `isValid("{invalid")` is false and the
guarded body is skipped, so no `JsonFormattingException` with any line/column
is produced. -/
theorem c2_counterexample :
    formatJ true 2 none (.str "\x7binvalid".data) = .ok none := rfl

/-- Claim C2, amended: `isValid("{invalid")` is false and `format("{invalid")`
returns the sentinel `None` without raising; the invalid input is absorbed by
the validity check before any decode error can arise. -/
theorem c2_amended :
    isValidJ true (.str "\x7binvalid".data) = false ∧
    formatJ true 2 none (.str "\x7binvalid".data) = .ok none :=
  ⟨rfl, rfl⟩

/-- Claim C4: `isValid` returns the empty-input policy on `None` and on the
empty string; on any other string it returns exactly whether `json.loads`
succeeds; on a non-string native value it returns whether decoding its
`json.dumps` serialization succeeds.  Totality of `isValidJ` embeds the
"never raises" part on the modeled input universe. -/
theorem c4_isValid_spec (policy : Bool) (s : Chars) (hs : s ≠ []) (v : JValue)
    (hv : isOtherValue v = true) :
    isValidJ policy .null = policy ∧
    isValidJ policy (.str []) = policy ∧
    isValidJ policy (.str s) = (jsonLoadsCs s).isSome ∧
    isValidJ policy v = (jsonLoadsCs (pyDumpsDefault v)).isSome := by
  refine ⟨rfl, rfl, ?_, ?_⟩
  · cases s with
    | nil => exact absurd rfl hs
    | cons c r => rfl
  · cases v with
    | null => exact absurd hv (by simp [isOtherValue])
    | str s2 => exact absurd hv (by simp [isOtherValue])
    | boolean b => rfl
    | num n => rfl
    | arr xs => rfl
    | obj kvs => rfl

/-- Witness for C4 at the nonempty string `"[1, 2]"` and the native list
`[1, 2]`. -/
theorem c4_witness :
    isValidJ true .null = true ∧
    isValidJ true (.str []) = true ∧
    isValidJ true (.str "[1, 2]".data) = (jsonLoadsCs "[1, 2]".data).isSome ∧
    isValidJ true (.arr [.num 1, .num 2]) =
      (jsonLoadsCs (pyDumpsDefault (.arr [.num 1, .num 2]))).isSome :=
  c4_isValid_spec true "[1, 2]".data (by decide) (.arr [.num 1, .num 2]) rfl

/-- Claim C7 (the code's actual behavior at the claim's inputs):
`setIndentation` accepts 11 and -1 and stores them — the standalone
formatter performs no range check, contradicting the claimed `RangeError`;
width 0 is accepted as the claim says. -/
theorem c7_setIndentation_unchecked :
    setIndentation (.int 11) = .ok 11 ∧
    setIndentation (.int (-1)) = .ok (-1) ∧
    setIndentation (.int 0) = .ok 0 :=
  ⟨rfl, rfl, rfl⟩

/-- Claim C10: with the default (permissive) empty-input policy,
`isValid("")` is true, yet `format("")` does not return a string: the empty
string skips past the validity check and the `json.loads("")` inside `format`
fails, raising `JsonFormattingException`. -/
theorem c10_empty_string_format_raises :
    isValidJ true (.str []) = true ∧
    formatJ true 2 none (.str []) =
      .error (.formatting "Invalid JSON input".data []) :=
  ⟨rfl, rfl⟩

/-- Claim C5 (the code's actual behavior at the claim's input): highlighting
the line `"when": "2023-04-01T12:00:00Z"` assigns the DateTime category to no
position at all.  On the bare line the value rules cannot even match (their
lookahead requires a following comma or closing bracket); with a trailing
comma the datetime rule does match but is then overwritten by the later
generic-string and number rules, because `highlightBlock` applies the rules
in addition order and a later `setFormat` call replaces an earlier one. -/
theorem c5_datetime_never_assigned :
    some HlCat.datetime ∉ highlightLine "\"when\": \"2023-04-01T12:00:00Z\"".data ∧
    some HlCat.datetime ∉ highlightLine "\"when\": \"2023-04-01T12:00:00Z\",".data ∧
    tokensOfLine "\"when\": \"2023-04-01T12:00:00Z\"".data =
      [HlSpan.mk 0 6 .key, HlSpan.mk 6 1 .separator, HlSpan.mk 8 1 .quote,
       HlSpan.mk 9 7 .number, HlSpan.mk 22 1 .separator, HlSpan.mk 23 2 .number,
       HlSpan.mk 25 1 .separator, HlSpan.mk 29 1 .quote] := by
  refine ⟨by decide, by decide, by decide⟩

/-- Claim C6, counterexample: tokenizing `"name": "Alice"` does not yield the
two claimed tokens (Key over `name` without quotes, String over `Alice`). -/
theorem c6_counterexample :
    tokensOfLine "\"name\": \"Alice\"".data ≠
      [HlSpan.mk 1 4 .key, HlSpan.mk 9 5 .string] := by
  decide

/-- Claim C6, amended: tokenizing `"name": "Alice"` yields a Key token over
`"name"` including both quote characters, a Separator token over the colon
and Quote tokens over the value's two quote characters; `Alice` itself gets
no token, because every string-value rule requires a following comma or
closing bracket, which this line lacks. -/
theorem c6_amended_tokens :
    tokensOfLine "\"name\": \"Alice\"".data =
      [HlSpan.mk 0 6 .key, HlSpan.mk 6 1 .separator,
       HlSpan.mk 8 1 .quote, HlSpan.mk 14 1 .quote] := by
  decide

/-- Claim C9, counterexample: `setData` with column 2 does not fail with a
`ModelError` — it returns normally with `False` (the sources define no
`ModelError` and `setData` contains no `raise`); the tree is unchanged. -/
theorem c9_counterexample :
    setData (TreeItem.parse (.obj [(['a'], .num 1)])) (some ([0], 2)) (.str ['x']) =
      .ok (false, TreeItem.parse (.obj [(['a'], .num 1)])) := rfl

/-- Claim C9, amended: `setData` with a column other than 0 and 1, or with the
invalid index, returns `False` without raising and leaves the tree — its
shape and every node's key/value — unchanged. -/
theorem c9_amended (root : TreeItem) (p : List Nat) (col : Nat) (h : 2 ≤ col)
    (v : JValue) :
    setData root (some (p, col)) v = .ok (false, root) ∧
    setData root none v = .ok (false, root) := by
  refine ⟨?_, rfl⟩
  match col, h with
  | n + 2, _ => rfl

/-- Witness for C9 at column 2 on a concrete tree. -/
theorem c9_witness :
    setData (TreeItem.parse demoJson) (some ([1], 2)) .null =
      .ok (false, TreeItem.parse demoJson) ∧
    setData (TreeItem.parse demoJson) none .null =
      .ok (false, TreeItem.parse demoJson) :=
  c9_amended (TreeItem.parse demoJson) [1] 2 (by decide) .null

/-! ### Lemmas for the round-trip law (C1) -/

theorem pyDictInsert_of_notMem (acc : List (Chars × JValue)) (k : Chars) (v : JValue)
    (h : k ∉ acc.map Prod.fst) : pyDictInsert acc k v = acc ++ [(k, v)] := by
  induction acc with
  | nil => rfl
  | cons kv rest ih =>
    obtain ⟨k0, v0⟩ := kv
    simp only [List.map_cons, List.mem_cons, not_or] at h
    rw [pyDictInsert, if_neg (fun he => h.1 he.symm), ih h.2]
    rfl

theorem pyDictOfAux_of_nodup (kvs : List (Chars × JValue)) :
    ∀ acc : List (Chars × JValue), ((acc ++ kvs).map Prod.fst).Nodup →
      pyDictOfAux acc kvs = acc ++ kvs := by
  induction kvs with
  | nil => intro acc _; simp [pyDictOfAux]
  | cons kv rest ih =>
    intro acc h
    obtain ⟨k, v⟩ := kv
    have hrw : acc ++ (k, v) :: rest = (acc ++ [(k, v)]) ++ rest := by simp
    have hk : k ∉ acc.map Prod.fst := by
      rw [List.map_append] at h
      have hdisj := List.disjoint_of_nodup_append h
      intro hmem
      exact hdisj hmem (by simp)
    rw [pyDictOfAux, pyDictInsert_of_notMem acc k v hk, ih (acc ++ [(k, v)]) (by rw [← hrw]; exact h)]
    simp

theorem pyDictOf_of_nodup (kvs : List (Chars × JValue))
    (h : (kvs.map Prod.fst).Nodup) : pyDictOf kvs = kvs := by
  have := pyDictOfAux_of_nodup kvs [] (by simpa using h)
  simpa [pyDictOf] using this

mutual

/-- Round trip at a well-formed native value (object keys pairwise distinct
throughout, as any Python `dict` guarantees). -/
theorem toJson_parse : ∀ v : JValue, wfJson v = true → toJson (TreeItem.parse v) = v
  | .null, _ => rfl
  | .boolean _, _ => rfl
  | .num _, _ => rfl
  | .str _, _ => rfl
  | .arr xs, h => by
    have hx : wfJsonElems xs = true := by rw [wfJson] at h; exact h
    rw [TreeItem.parse, toJson, toJsonElems_parse xs hx]
  | .obj kvs, h => by
    rw [wfJson] at h
    rw [Bool.and_eq_true] at h
    obtain ⟨h1, h2⟩ := h
    rw [TreeItem.parse, toJson, toJsonMembers_parse kvs h2,
      pyDictOf_of_nodup kvs (of_decide_eq_true h1)]

theorem toJsonMembers_parse : ∀ kvs : List (Chars × JValue), wfJsonMembers kvs = true →
    toJsonMembers (TreeItem.parseMembers kvs) = kvs
  | [], _ => rfl
  | (k, v) :: kvs, h => by
    rw [wfJsonMembers] at h
    rw [Bool.and_eq_true] at h
    obtain ⟨h1, h2⟩ := h
    rw [TreeItem.parseMembers]
    cases hp : TreeItem.parse v with
    | mk pk pv pt pcs =>
      show toJsonMembers (TreeItem.mk (JValue.str k) pv pt pcs :: TreeItem.parseMembers kvs) =
        (k, v) :: kvs
      rw [toJsonMembers]
      have hv : toJson (TreeItem.mk (.str k) pv pt pcs) = v := by
        have hj := toJson_parse v h1
        rw [hp] at hj
        have hkey : toJson (TreeItem.mk (.str k) pv pt pcs) =
            toJson (TreeItem.mk pk pv pt pcs) := by
          cases pt <;> rfl
        rw [hkey, hj]
      rw [hv, toJsonMembers_parse kvs h2]
      rfl

theorem toJsonElems_parse : ∀ xs : List JValue, wfJsonElems xs = true →
    toJsonElems (TreeItem.parseElems xs) = xs
  | [], _ => rfl
  | v :: vs, h => by
    rw [wfJsonElems] at h
    rw [Bool.and_eq_true] at h
    obtain ⟨h1, h2⟩ := h
    rw [TreeItem.parseElems, toJsonElems, toJson_parse v h1, toJsonElems_parse vs h2]

end

/-- Claim C1: for every native JSON value `v` (object keys distinct at every
level, as for any value built of Python dicts), loading `v` into the document
tree with `load_json` (which builds `TreeItem.parse v`) and converting back
with `to_json` yields `v` itself — structural equality including object
member insertion order, since `JValue.obj` carries its members as an ordered
list. -/
theorem c1_roundtrip (v : JValue) (h : wfJson v = true) :
    toJson (TreeItem.parse v) = v :=
  toJson_parse v h

/-- Witness for C1 at the demo document of `main.py`. -/
theorem c1_witness : wfJson demoJson = true ∧ toJson (TreeItem.parse demoJson) = demoJson :=
  ⟨by decide, c1_roundtrip demoJson (by decide)⟩

/-! ### Lemmas for C8: the strip-and-join pipeline as a single scan -/

theorem dropWhile_append_of_neg (p : Char → Bool) (ys : Chars) (c : Char) (zs : Chars)
    (h : p c = false) :
    (ys ++ c :: zs).dropWhile p = ys.dropWhile p ++ c :: zs := by
  induction ys with
  | nil => simp [List.dropWhile_cons, h]
  | cons y ys ih =>
    rw [List.cons_append, List.dropWhile_cons, List.dropWhile_cons]
    cases hy : p y <;> simp [hy, ih]

theorem stripEnd_append_nonspace (a : Chars) (c : Char) (xs : Chars)
    (h : isPySpace c = false) :
    stripEnd (a ++ c :: xs) = a ++ c :: stripEnd xs := by
  have h1 : (a ++ c :: xs).reverse = xs.reverse ++ c :: a.reverse := by simp
  rw [stripEnd, h1, dropWhile_append_of_neg _ _ _ _ h, stripEnd]
  simp

theorem stripEnd_cons_nonspace (c : Char) (xs : Chars) (h : isPySpace c = false) :
    stripEnd (c :: xs) = c :: stripEnd xs := by
  have := stripEnd_append_nonspace [] c xs h
  simpa using this

theorem stripEnd_of_all_space (buf : Chars) (h : ∀ x ∈ buf, isPySpace x = true) :
    stripEnd buf = [] := by
  rw [stripEnd, List.dropWhile_eq_nil_iff.mpr, List.reverse_nil]
  intro x hx
  exact h x (List.mem_reverse.mp hx)

theorem pyStrip_cons_space (c : Char) (xs : Chars) (h : isPySpace c = true) :
    pyStrip (c :: xs) = pyStrip xs := by
  rw [pyStrip, pyStrip, List.dropWhile_cons]
  simp [h]

theorem pyStrip_cons_nonspace (c : Char) (xs : Chars) (h : isPySpace c = false) :
    pyStrip (c :: xs) = c :: stripEnd xs := by
  show stripEnd ((c :: xs).dropWhile isPySpace) = c :: stripEnd xs
  rw [List.dropWhile_cons]
  simp only [h, Bool.false_eq_true, if_false]
  exact stripEnd_cons_nonspace c xs h

theorem mLead_cons (c : Char) (r : Chars) :
    mLead (c :: r) =
      if isNlChar c then mLead r else if isPySpace c then mLead r else c :: mCopy r := rfl

theorem mCopy_cons (c : Char) (r : Chars) :
    mCopy (c :: r) =
      if isNlChar c then mLead r else if isPySpace c then mPend [c] r else c :: mCopy r := rfl

theorem mPend_cons (buf : Chars) (c : Char) (r : Chars) :
    mPend buf (c :: r) =
      if isNlChar c then mLead r
      else if isPySpace c then mPend (buf ++ [c]) r
      else buf ++ c :: mCopy r := rfl

theorem lineHead_cons (c : Char) (r : Chars) :
    lineHead (c :: r) = if isNlChar c then [] else c :: lineHead r := by
  rw [lineHead, List.takeWhile_cons]
  cases h : isNlChar c <;> simp [h, lineHead]

theorem lineRest_cons (c : Char) (r : Chars) :
    lineRest (c :: r) =
      if c = '\n' then r
      else if c = '\r' then
        (match r with
         | [] => []
         | d :: r2 => if d = '\n' then r2 else d :: r2)
      else lineRest r := rfl

theorem pySplitlines_cons (c : Char) (r : Chars) :
    pySplitlines (c :: r) =
      if c = '\n' then [] :: pySplitlines r
      else if c = '\r' then
        (match r with
         | [] => [[]]
         | d :: r2 => if d = '\n' then [] :: pySplitlines r2 else [] :: pySplitlines (d :: r2))
      else
        (match pySplitlines r with
         | [] => [[c]]
         | l :: ls => (c :: l) :: ls) := by
  rw [pySplitlines.eq_def]
  rfl

theorem pySplitlines_decomp : ∀ cs : Chars, cs ≠ [] →
    pySplitlines cs = lineHead cs :: pySplitlines (lineRest cs)
  | [], h => absurd rfl h
  | c :: r, _ => by
    rw [pySplitlines_cons, lineHead_cons, lineRest_cons]
    by_cases hn : c = '\n'
    · simp [hn, isNlChar]
    · by_cases hcr : c = '\r'
      · have hnl : isNlChar c = true := by simp [isNlChar, hcr]
        simp only [hnl, if_true, if_neg hn, if_pos hcr]
        cases r with
        | nil => simp [pySplitlines]
        | cons d r2 =>
          by_cases hd : d = '\n'
          · simp [hd]
          · simp [hd]
      · have hnl : isNlChar c = false := by simp [isNlChar, hn, hcr]
        simp only [hnl, if_neg hn, if_neg hcr, Bool.false_eq_true, if_false]
        cases hr : r with
        | nil => simp [pySplitlines, lineRest, lineHead]
        | cons d r2 =>
          have hne : r ≠ [] := by rw [hr]; simp
          have ih := pySplitlines_decomp r hne
          rw [← hr, ih]

theorem pipelineOf_decomp (cs : Chars) :
    pipelineOf cs = pyStrip (lineHead cs) ++ pipelineOf (lineRest cs) := by
  cases cs with
  | nil => rfl
  | cons c r =>
    rw [pipelineOf, pySplitlines_decomp (c :: r) (by simp)]
    rfl

/-- The three scan states against the split-strip-join pipeline: `mLead`
computes the pipeline, `mCopy` the pipeline of a line already entered, and
`mPend` the same with a pending whitespace run. -/
theorem mStates : ∀ n : Nat, ∀ cs : Chars, cs.length ≤ n →
    (mLead cs = pipelineOf cs) ∧
    (mCopy cs = stripEnd (lineHead cs) ++ pipelineOf (lineRest cs)) ∧
    (∀ buf : Chars, (∀ x ∈ buf, isPySpace x = true) →
      mPend buf cs = stripEnd (buf ++ lineHead cs) ++ pipelineOf (lineRest cs)) := by
  intro n
  induction n with
  | zero =>
    intro cs h
    have hcs : cs = [] := List.eq_nil_of_length_eq_zero (Nat.le_zero.mp h)
    subst hcs
    refine ⟨rfl, rfl, fun buf hb => ?_⟩
    show ([] : Chars) = stripEnd (buf ++ lineHead []) ++ pipelineOf (lineRest [])
    rw [show lineHead ([] : Chars) = [] from rfl, List.append_nil,
      stripEnd_of_all_space buf hb]
    rfl
  | succ n ih =>
    intro cs hlen
    cases cs with
    | nil =>
      refine ⟨rfl, rfl, fun buf hb => ?_⟩
      show ([] : Chars) = stripEnd (buf ++ lineHead []) ++ pipelineOf (lineRest [])
      rw [show lineHead ([] : Chars) = [] from rfl, List.append_nil,
        stripEnd_of_all_space buf hb]
      rfl
    | cons c r =>
      have hr : r.length ≤ n := by
        simp only [List.length_cons] at hlen
        omega
      obtain ⟨ihl, ihc, ihp⟩ := ih r hr
      by_cases hn : c = '\n'
      · have hnl : isNlChar c = true := by simp [isNlChar, hn]
        have hLH : lineHead (c :: r) = [] := by rw [lineHead_cons]; simp [hnl]
        have hLR : lineRest (c :: r) = r := by rw [lineRest_cons]; simp [hn]
        have hPipe : pipelineOf (c :: r) = pipelineOf r := by
          rw [pipelineOf_decomp (c :: r), hLH, hLR]; rfl
        refine ⟨?_, ?_, ?_⟩
        · rw [mLead_cons]; simp only [hnl, if_true]; rw [ihl, hPipe]
        · rw [mCopy_cons]; simp only [hnl, if_true]; rw [ihl, hLH, hLR]
          show pipelineOf r = stripEnd [] ++ pipelineOf r
          rfl
        · intro buf hb
          rw [mPend_cons]; simp only [hnl, if_true]
          rw [ihl, hLH, hLR, List.append_nil, stripEnd_of_all_space buf hb]
          rfl
      · by_cases hcr : c = '\r'
        · have hnl : isNlChar c = true := by simp [isNlChar, hcr]
          have hLH : lineHead (c :: r) = [] := by rw [lineHead_cons]; simp [hnl]
          cases r with
          | nil =>
            have hLR : lineRest (c :: ([] : Chars)) = [] := by
              rw [lineRest_cons]; simp [hn, hcr]
            have hPipe : pipelineOf (c :: ([] : Chars)) = [] := by
              rw [pipelineOf_decomp (c :: []), hLH, hLR]; rfl
            refine ⟨?_, ?_, ?_⟩
            · rw [mLead_cons]; simp only [hnl, if_true]; rw [hPipe]; rfl
            · rw [mCopy_cons]; simp only [hnl, if_true]; rw [hLH, hLR]; rfl
            · intro buf hb
              rw [mPend_cons]; simp only [hnl, if_true]
              rw [hLH, hLR, List.append_nil, stripEnd_of_all_space buf hb]
              rfl
          | cons d r2 =>
            by_cases hd : d = '\n'
            · have hLR : lineRest (c :: d :: r2) = r2 := by
                rw [lineRest_cons]; simp [hn, hcr, hd]
              have hr2 : r2.length ≤ n := by
                simp only [List.length_cons] at hlen
                omega
              obtain ⟨ihl2, _, _⟩ := ih r2 hr2
              have hstep : mLead (d :: r2) = mLead r2 := by
                rw [mLead_cons]; simp [isNlChar, hd]
              have hPipe : pipelineOf (c :: d :: r2) = pipelineOf r2 := by
                rw [pipelineOf_decomp (c :: d :: r2), hLH, hLR]; rfl
              refine ⟨?_, ?_, ?_⟩
              · rw [mLead_cons]; simp only [hnl, if_true]; rw [hstep, ihl2, hPipe]
              · rw [mCopy_cons]; simp only [hnl, if_true]
                rw [hstep, ihl2, hLH, hLR]
                show pipelineOf r2 = stripEnd [] ++ pipelineOf r2
                rfl
              · intro buf hb
                rw [mPend_cons]; simp only [hnl, if_true]
                rw [hstep, ihl2, hLH, hLR, List.append_nil, stripEnd_of_all_space buf hb]
                rfl
            · have hLR : lineRest (c :: d :: r2) = d :: r2 := by
                rw [lineRest_cons]; simp [hn, hcr, hd]
              have hPipe : pipelineOf (c :: d :: r2) = pipelineOf (d :: r2) := by
                rw [pipelineOf_decomp (c :: d :: r2), hLH, hLR]; rfl
              refine ⟨?_, ?_, ?_⟩
              · rw [mLead_cons]; simp only [hnl, if_true]; rw [ihl, hPipe]
              · rw [mCopy_cons]; simp only [hnl, if_true]
                rw [ihl, hLH, hLR]
                show pipelineOf (d :: r2) = stripEnd [] ++ pipelineOf (d :: r2)
                rfl
              · intro buf hb
                rw [mPend_cons]; simp only [hnl, if_true]
                rw [ihl, hLH, hLR, List.append_nil, stripEnd_of_all_space buf hb]
                rfl
        · have hnl : isNlChar c = false := by simp [isNlChar, hn, hcr]
          have hLH : lineHead (c :: r) = c :: lineHead r := by
            rw [lineHead_cons]; simp [hnl]
          have hLR : lineRest (c :: r) = lineRest r := by
            rw [lineRest_cons]; simp [hn, hcr]
          by_cases hsp : isPySpace c
          · refine ⟨?_, ?_, ?_⟩
            · rw [mLead_cons]
              simp only [hnl, Bool.false_eq_true, if_false, hsp, if_true]
              rw [ihl, pipelineOf_decomp (c :: r), hLH, hLR,
                pyStrip_cons_space c _ hsp, pipelineOf_decomp r]
            · rw [mCopy_cons]
              simp only [hnl, Bool.false_eq_true, if_false, hsp, if_true]
              rw [ihp [c] (by simp [hsp]), hLH, hLR]
              rfl
            · intro buf hb
              rw [mPend_cons]
              simp only [hnl, Bool.false_eq_true, if_false, hsp, if_true]
              have hb2 : ∀ x ∈ buf ++ [c], isPySpace x = true := by
                intro x hx
                rcases List.mem_append.mp hx with hx1 | hx2
                · exact hb x hx1
                · simp only [List.mem_singleton] at hx2
                  rw [hx2]; exact hsp
              rw [ihp (buf ++ [c]) hb2, hLH, hLR, List.append_assoc]
              rfl
          · have hspf : isPySpace c = false := by simpa using hsp
            refine ⟨?_, ?_, ?_⟩
            · rw [mLead_cons]
              simp only [hnl, Bool.false_eq_true, if_false, hspf]
              rw [ihc, pipelineOf_decomp (c :: r), hLH, hLR,
                pyStrip_cons_nonspace c _ hspf]
              rfl
            · rw [mCopy_cons]
              simp only [hnl, Bool.false_eq_true, if_false, hspf]
              rw [ihc, hLH, hLR, stripEnd_cons_nonspace c _ hspf]
              rfl
            · intro buf hb
              rw [mPend_cons]
              simp only [hnl, Bool.false_eq_true, if_false, hspf]
              rw [ihc, hLH, hLR, stripEnd_append_nonspace buf c _ hspf]
              simp

/-- The split-strip-join pipeline of `minifiedJson` equals the single
left-to-right scan `mLead`. -/
theorem pipeline_eq_mLead (cs : Chars) :
    joinAll ((pySplitlines cs).map pyStrip) = mLead cs :=
  ((mStates cs.length cs le_rfl).1).symm

/-! ### Lemmas for C8: the scan over pieces of `json.dumps` output -/

theorem endsNonspace_cons (c : Char) (r : Chars) (h : r ≠ []) :
    endsNonspace (c :: r) = endsNonspace r := by
  cases r with
  | nil => exact absurd rfl h
  | cons d r2 => rfl

theorem endsNonspace_concat (a : Chars) (c : Char) :
    endsNonspace (a ++ [c]) = !isPySpace c := by
  induction a with
  | nil => rfl
  | cons y ys ih =>
    rw [List.cons_append, endsNonspace_cons y (ys ++ [c]) (by simp), ih]

/-- The scan `mCopy` copies a break-free segment that does not end in whitespace, and
`mPend` flushes its pending buffer over such a segment. -/
theorem mSeg : ∀ seg : Chars,
    (noBreakChars seg = true → endsNonspace seg = true →
      ∀ r, mCopy (seg ++ r) = seg ++ mCopy r) ∧
    (noBreakChars seg = true → endsNonspace seg = true → seg ≠ [] →
      ∀ buf r, mPend buf (seg ++ r) = buf ++ (seg ++ mCopy r)) := by
  intro seg
  induction seg with
  | nil => exact ⟨fun _ _ _ => rfl, fun _ _ h => absurd rfl h⟩
  | cons c rest ih =>
    obtain ⟨ih1, ih2⟩ := ih
    have hsplit : ∀ h : noBreakChars (c :: rest) = true,
        isNlChar c = false ∧ noBreakChars rest = true := by
      intro h
      rw [noBreakChars, List.all_cons, Bool.and_eq_true] at h
      exact ⟨by simpa using h.1, h.2⟩
    have hrest : ∀ _ : endsNonspace (c :: rest) = true, isPySpace c = true → rest ≠ [] := by
      intro hes hsp he
      subst he
      rw [endsNonspace, hsp] at hes
      simp at hes
    constructor
    · intro hnb hes r
      obtain ⟨hc, hnb2⟩ := hsplit hnb
      rw [List.cons_append, mCopy_cons]
      simp only [hc, Bool.false_eq_true, if_false]
      by_cases hsp : isPySpace c
      · have hrne : rest ≠ [] := hrest hes hsp
        have hes2 : endsNonspace rest = true := by
          rw [← endsNonspace_cons c rest hrne]; exact hes
        simp only [hsp, if_true]
        rw [ih2 hnb2 hes2 hrne [c] r]
        rfl
      · have hes2 : endsNonspace rest = true := by
          cases rest with
          | nil => rfl
          | cons d r2 => rw [← endsNonspace_cons c (d :: r2) (by simp)]; exact hes
        simp only [hsp, Bool.false_eq_true, if_false]
        rw [ih1 hnb2 hes2 r]
        rfl
    · intro hnb hes _ buf r
      obtain ⟨hc, hnb2⟩ := hsplit hnb
      rw [List.cons_append, mPend_cons]
      simp only [hc, Bool.false_eq_true, if_false]
      by_cases hsp : isPySpace c
      · have hrne : rest ≠ [] := hrest hes hsp
        have hes2 : endsNonspace rest = true := by
          rw [← endsNonspace_cons c rest hrne]; exact hes
        simp only [hsp, if_true]
        rw [ih2 hnb2 hes2 hrne (buf ++ [c]) r]
        simp
      · have hes2 : endsNonspace rest = true := by
          cases rest with
          | nil => rfl
          | cons d r2 => rw [← endsNonspace_cons c (d :: r2) (by simp)]; exact hes
        simp only [hsp, Bool.false_eq_true, if_false]
        rw [ih1 hnb2 hes2 r]
        rfl

theorem mCopy_seg (seg : Chars) (h1 : noBreakChars seg = true)
    (h2 : endsNonspace seg = true) (r : Chars) :
    mCopy (seg ++ r) = seg ++ mCopy r :=
  (mSeg seg).1 h1 h2 r

theorem mLead_replicate (k : Nat) (r : Chars) :
    mLead (List.replicate k ' ' ++ r) = mLead r := by
  induction k with
  | zero => rfl
  | succ k ih =>
    rw [List.replicate_succ, List.cons_append, mLead_cons]
    simpa [isNlChar, isPySpace] using ih

theorem mLead_of_headNonspace (a r : Chars) (h : headNonspace a = true) :
    mLead (a ++ r) = mCopy (a ++ r) := by
  cases a with
  | nil => simp [headNonspace] at h
  | cons c rest =>
    rw [headNonspace, Bool.and_eq_true] at h
    rw [List.cons_append, mLead_cons, mCopy_cons]
    simp only [show isPySpace c = false by simpa using h.1,
      show isNlChar c = false by simpa using h.2, Bool.false_eq_true, if_false]

theorem headNonspace_append (a b : Chars) (h : headNonspace a = true) :
    headNonspace (a ++ b) = true := by
  cases a with
  | nil => simp [headNonspace] at h
  | cons c rest => exact h

/-! Character facts for the tokens emitted by `json.dumps`. -/

theorem digitChar_facts (k : Nat) (hk : k < 10) :
    isPySpace (Char.ofNat (48 + k)) = false ∧ isNlChar (Char.ofNat (48 + k)) = false ∧
      Char.ofNat (48 + k) ≠ '"' ∧ Char.ofNat (48 + k) ≠ '\\' := by
  interval_cases k <;> exact ⟨rfl, rfl, by decide, by decide⟩

theorem hexDigitChar_facts (k : Nat) (hk : k < 16) :
    isPySpace (hexDigitChar k) = false ∧ isNlChar (hexDigitChar k) = false ∧
      hexDigitChar k ≠ '"' ∧ hexDigitChar k ≠ '\\' := by
  interval_cases k <;> exact ⟨rfl, rfl, by decide, by decide⟩

theorem natDigitsAux_mem : ∀ f n : Nat, ∀ c ∈ natDigitsAux f n, ∃ k, k < 10 ∧ c = Char.ofNat (48 + k) := by
  intro f
  induction f with
  | zero => intro n c hc; simp [natDigitsAux] at hc
  | succ f ih =>
    intro n c hc
    rw [natDigitsAux] at hc
    by_cases h : n < 10
    · rw [if_pos h] at hc
      simp only [List.mem_singleton] at hc
      exact ⟨n, h, hc⟩
    · rw [if_neg h] at hc
      rcases List.mem_append.mp hc with h1 | h2
      · exact ih _ c h1
      · simp only [List.mem_singleton] at h2
        exact ⟨n % 10, Nat.mod_lt _ (by norm_num), h2⟩

theorem natDigitsAux_noBreak (f n : Nat) : noBreakChars (natDigitsAux f n) = true := by
  rw [noBreakChars, List.all_eq_true]
  intro c hc
  obtain ⟨k, hk, he⟩ := natDigitsAux_mem f n c hc
  subst he
  simp [(digitChar_facts k hk).2.1]

theorem natDigitsAux_ends (f n : Nat) : endsNonspace (natDigitsAux f n) = true := by
  induction f generalizing n with
  | zero => rfl
  | succ f ih =>
    rw [natDigitsAux]
    by_cases h : n < 10
    · rw [if_pos h]
      show (!isPySpace (Char.ofNat (48 + n))) = true
      rw [(digitChar_facts n h).1]
      rfl
    · rw [if_neg h, endsNonspace_concat]
      have h10 : n % 10 < 10 := Nat.mod_lt _ (by norm_num)
      rw [(digitChar_facts _ h10).1]
      rfl

theorem natDigitsAux_head (f n : Nat) (hf : 1 ≤ f) :
    headNonspace (natDigitsAux f n) = true := by
  induction f generalizing n with
  | zero => omega
  | succ f ih =>
    rw [natDigitsAux]
    by_cases h : n < 10
    · rw [if_pos h]
      show (!isPySpace (Char.ofNat (48 + n)) && !isNlChar (Char.ofNat (48 + n))) = true
      rw [(digitChar_facts n h).1, (digitChar_facts n h).2.1]
      rfl
    · rw [if_neg h]
      by_cases hf2 : 1 ≤ f
      · exact headNonspace_append _ _ (ih hf2 (n := n / 10))
      · have hf0 : f = 0 := by omega
        subst hf0
        show headNonspace ([] ++ [Char.ofNat (48 + n % 10)]) = true
        have h10 : n % 10 < 10 := Nat.mod_lt _ (by norm_num)
        rw [List.nil_append]
        show (!isPySpace (Char.ofNat (48 + n % 10)) && !isNlChar (Char.ofNat (48 + n % 10))) = true
        rw [(digitChar_facts _ h10).1, (digitChar_facts _ h10).2.1]
        rfl

theorem intToken_noBreak (n : Int) : noBreakChars (intToken n) = true := by
  rw [intToken]
  by_cases h : n < 0
  · rw [if_pos h, noBreakChars, List.all_cons, Bool.and_eq_true]
    have hrest := natDigitsAux_noBreak n.natAbs n.natAbs
    rw [noBreakChars] at hrest
    exact ⟨rfl, hrest⟩
  · rw [if_neg h]; exact natDigitsAux_noBreak _ _

theorem intToken_ends (n : Int) : endsNonspace (intToken n) = true := by
  rw [intToken]
  by_cases h : n < 0
  · rw [if_pos h]
    cases hd : natDigitsAux n.natAbs n.natAbs with
    | nil => rfl
    | cons c r =>
      rw [endsNonspace_cons _ _ (by simp)]
      rw [← hd]
      exact natDigitsAux_ends _ _
  · rw [if_neg h]; exact natDigitsAux_ends _ _

theorem intToken_head (n : Int) : headNonspace (intToken n) = true := by
  rw [intToken]
  by_cases h : n < 0
  · rw [if_pos h]; rfl
  · rw [if_neg h]; exact natDigitsAux_head _ _ (by omega)

theorem uEscape_noBreak (m : Nat) : ∀ x ∈ '\\' :: 'u' :: hex4 m, isNlChar x = false := by
  intro x hx
  rw [hex4] at hx
  simp only [List.mem_cons, List.not_mem_nil, or_false] at hx
  rcases hx with h | h | h | h | h | h <;> subst h
  · rfl
  · rfl
  · exact (hexDigitChar_facts _ (Nat.mod_lt _ (by norm_num))).2.1
  · exact (hexDigitChar_facts _ (Nat.mod_lt _ (by norm_num))).2.1
  · exact (hexDigitChar_facts _ (Nat.mod_lt _ (by norm_num))).2.1
  · exact (hexDigitChar_facts _ (Nat.mod_lt _ (by norm_num))).2.1

set_option maxHeartbeats 1000000 in
theorem escapeChar_noBreak (c : Char) : ∀ x ∈ escapeChar c, isNlChar x = false := by
  intro x hx
  rw [escapeChar] at hx
  split_ifs at hx with h1 h2 h3 h4 h5 h6 h7 h8 h9 h10
  · simp only [List.mem_cons, List.not_mem_nil, or_false] at hx
    rcases hx with h | h <;> subst h <;> rfl
  · simp only [List.mem_cons, List.not_mem_nil, or_false] at hx
    rcases hx with h | h <;> subst h <;> rfl
  · simp only [List.mem_cons, List.not_mem_nil, or_false] at hx
    rcases hx with h | h <;> subst h <;> rfl
  · simp only [List.mem_cons, List.not_mem_nil, or_false] at hx
    rcases hx with h | h <;> subst h <;> rfl
  · simp only [List.mem_cons, List.not_mem_nil, or_false] at hx
    rcases hx with h | h <;> subst h <;> rfl
  · simp only [List.mem_cons, List.not_mem_nil, or_false] at hx
    rcases hx with h | h <;> subst h <;> rfl
  · simp only [List.mem_cons, List.not_mem_nil, or_false] at hx
    rcases hx with h | h <;> subst h <;> rfl
  · exact uEscape_noBreak _ x hx
  · simp only [List.mem_singleton] at hx
    subst hx
    simp [isNlChar, h3, h4]
  · exact uEscape_noBreak _ x hx
  · rcases List.mem_append.mp hx with h | h
    · exact uEscape_noBreak _ x h
    · exact uEscape_noBreak _ x h

theorem encodeStringBody_noBreak (s : Chars) : noBreakChars (encodeStringBody s) = true := by
  induction s with
  | nil => rfl
  | cons c r ih =>
    rw [encodeStringBody, noBreakChars, List.all_append, Bool.and_eq_true]
    constructor
    · rw [List.all_eq_true]
      intro x hx
      simp [escapeChar_noBreak c x hx]
    · rw [noBreakChars] at ih
      exact ih

theorem encodeString_noBreak (s : Chars) : noBreakChars (encodeString s) = true := by
  have hb := encodeStringBody_noBreak s
  rw [noBreakChars, List.all_eq_true] at hb ⊢
  intro x hx
  rw [encodeString] at hx
  rcases List.mem_cons.mp hx with h | h
  · subst h; rfl
  · rcases List.mem_append.mp h with h2 | h2
    · exact hb x h2
    · simp only [List.mem_singleton] at h2
      subst h2; rfl

theorem encodeString_ends (s : Chars) : endsNonspace (encodeString s) = true := by
  rw [encodeString,
    show ('"' :: encodeStringBody s ++ ['"']) = ('"' :: encodeStringBody s) ++ ['"'] from rfl,
    endsNonspace_concat]
  rfl

/-! Head characters of `json.dumps` output. -/

theorem mLead_eq_mCopy (x : Chars) (h : headNonspace x = true) : mLead x = mCopy x := by
  cases x with
  | nil => simp [headNonspace] at h
  | cons c rest =>
    rw [headNonspace, Bool.and_eq_true] at h
    rw [mLead_cons, mCopy_cons]
    simp only [show isPySpace c = false by simpa using h.1,
      show isNlChar c = false by simpa using h.2, Bool.false_eq_true, if_false]

theorem headNonspace_dumpJson (w : Option Nat) (isep ksep : Chars) (d : Nat) :
    ∀ v : JValue, headNonspace (dumpJson w isep ksep d v) = true
  | .null => rfl
  | .boolean true => rfl
  | .boolean false => rfl
  | .num n => intToken_head n
  | .str _ => rfl
  | .arr [] => rfl
  | .arr (_ :: _) => rfl
  | .obj [] => rfl
  | .obj (_ :: _) => rfl

theorem headNonspace_dumpElems (w : Option Nat) (isep ksep : Chars) (d : Nat)
    (x : JValue) (xs : List JValue) :
    headNonspace (dumpElems w isep ksep d (x :: xs)) = true := by
  cases xs with
  | nil => rw [dumpElems]; exact headNonspace_dumpJson w isep ksep d x
  | cons y ys =>
    rw [dumpElems]
    simp only [List.append_assoc]
    exact headNonspace_append _ _ (headNonspace_dumpJson w isep ksep d x)

theorem headNonspace_dumpMembers (w : Option Nat) (isep ksep : Chars) (d : Nat)
    (kv : Chars × JValue) (kvs : List (Chars × JValue)) :
    headNonspace (dumpMembers w isep ksep d (kv :: kvs)) = true := by
  obtain ⟨k, v⟩ := kv
  cases kvs with
  | nil =>
    rw [dumpMembers]
    exact headNonspace_append _ _ (by rw [encodeString]; rfl)
  | cons kv2 kvs2 =>
    rw [dumpMembers]
    simp only [List.append_assoc]
    exact headNonspace_append _ _ (by rw [encodeString]; rfl)

/-! The scan turns indented dumps into compact dumps. -/

theorem nlIndent_none (k : Nat) : nlIndent none k = [] := rfl

theorem mCopy_plain_cons (c : Char) (h1 : isNlChar c = false) (h2 : isPySpace c = false)
    (r : Chars) : mCopy (c :: r) = c :: mCopy r := by
  rw [mCopy_cons]
  simp [h1, h2]

theorem mCopy_nlIndent (wn k : Nat) (rest : Chars) (h : headNonspace rest = true) :
    mCopy (nlIndent (some wn) k ++ rest) = mCopy rest := by
  rw [nlIndent, List.cons_append, mCopy_cons]
  simp only [show isNlChar '\n' = true from rfl, if_true]
  rw [mLead_replicate, mLead_eq_mCopy rest h]

mutual

/-- Scanning the indented dump of a value emits its compact dump: every
line break plus indentation block is dropped and everything else is copied
verbatim. -/
theorem mCopy_dumpJson : ∀ (v : JValue) (w d : Nat) (r : Chars),
    mCopy (dumpJson (some w) [','] [':'] d v ++ r) =
      dumpJson none [','] [':'] d v ++ mCopy r
  | .null, _, _, r => mCopy_seg ['n', 'u', 'l', 'l'] (by decide) (by decide) r
  | .boolean true, _, _, r => mCopy_seg ['t', 'r', 'u', 'e'] (by decide) (by decide) r
  | .boolean false, _, _, r => mCopy_seg ['f', 'a', 'l', 's', 'e'] (by decide) (by decide) r
  | .num n, _, _, r => mCopy_seg (intToken n) (intToken_noBreak n) (intToken_ends n) r
  | .str s, _, _, r => mCopy_seg (encodeString s) (encodeString_noBreak s) (encodeString_ends s) r
  | .arr [], _, _, r => mCopy_seg ['[', ']'] (by decide) (by decide) r
  | .obj [], _, _, r => mCopy_seg ['{', '}'] (by decide) (by decide) r
  | .arr (x :: xs), w, d, r => by
    rw [dumpJson, dumpJson]
    simp only [List.cons_append, List.append_assoc, List.singleton_append, nlIndent_none,
      List.nil_append]
    rw [mCopy_plain_cons '[' rfl rfl,
      mCopy_nlIndent w (d + 1) _
        (headNonspace_append _ _ (headNonspace_dumpElems (some w) [','] [':'] (d + 1) x xs)),
      mCopy_dumpElems (x :: xs) w (d + 1) _,
      mCopy_nlIndent w d (']' :: r) rfl,
      mCopy_plain_cons ']' rfl rfl]
  | .obj (kv :: kvs), w, d, r => by
    rw [dumpJson, dumpJson]
    simp only [List.cons_append, List.append_assoc, List.singleton_append, nlIndent_none,
      List.nil_append]
    rw [mCopy_plain_cons '{' rfl rfl,
      mCopy_nlIndent w (d + 1) _
        (headNonspace_append _ _ (headNonspace_dumpMembers (some w) [','] [':'] (d + 1) kv kvs)),
      mCopy_dumpMembers (kv :: kvs) w (d + 1) _,
      mCopy_nlIndent w d ('}' :: r) rfl,
      mCopy_plain_cons '}' rfl rfl]

theorem mCopy_dumpElems : ∀ (xs : List JValue) (w d : Nat) (r : Chars),
    mCopy (dumpElems (some w) [','] [':'] d xs ++ r) =
      dumpElems none [','] [':'] d xs ++ mCopy r
  | [], _, _, _ => rfl
  | [x], w, d, r => by
    rw [dumpElems, dumpElems]
    exact mCopy_dumpJson x w d r
  | x :: y :: ys, w, d, r => by
    rw [dumpElems, dumpElems]
    simp only [List.cons_append, List.append_assoc, List.singleton_append, nlIndent_none,
      List.nil_append]
    rw [mCopy_dumpJson x w d _,
      mCopy_plain_cons ',' rfl rfl,
      mCopy_nlIndent w d _
        (headNonspace_append _ _ (headNonspace_dumpElems (some w) [','] [':'] d y ys)),
      mCopy_dumpElems (y :: ys) w d r]

theorem mCopy_dumpMembers : ∀ (kvs : List (Chars × JValue)) (w d : Nat) (r : Chars),
    mCopy (dumpMembers (some w) [','] [':'] d kvs ++ r) =
      dumpMembers none [','] [':'] d kvs ++ mCopy r
  | [], _, _, _ => rfl
  | [(k, v)], w, d, r => by
    rw [dumpMembers, dumpMembers]
    simp only [List.cons_append, List.append_assoc, List.singleton_append, nlIndent_none,
      List.nil_append]
    rw [mCopy_seg (encodeString k) (encodeString_noBreak k) (encodeString_ends k),
      mCopy_plain_cons ':' rfl rfl,
      mCopy_dumpJson v w d r]
  | (k, v) :: kv :: kvs, w, d, r => by
    rw [dumpMembers, dumpMembers]
    simp only [List.cons_append, List.append_assoc, List.singleton_append, nlIndent_none,
      List.nil_append]
    rw [mCopy_seg (encodeString k) (encodeString_noBreak k) (encodeString_ends k),
      mCopy_plain_cons ':' rfl rfl,
      mCopy_dumpJson v w d _,
      mCopy_plain_cons ',' rfl rfl,
      mCopy_nlIndent w d _
        (headNonspace_append _ _ (headNonspace_dumpMembers (some w) [','] [':'] d kv kvs)),
      mCopy_dumpMembers (kv :: kvs) w d r]

end

/-! ### Lemmas for C8: no newline and no structural whitespace in the
compact dump -/

theorem noBreak_cons (c : Char) (t : Chars) :
    noBreakChars (c :: t) = (!isNlChar c && noBreakChars t) := rfl

theorem noBreak_append (a b : Chars) :
    noBreakChars (a ++ b) = (noBreakChars a && noBreakChars b) := by
  rw [noBreakChars, noBreakChars, noBreakChars, List.all_append]

mutual

theorem noBreak_dumpJson : ∀ (v : JValue) (d : Nat),
    noBreakChars (dumpJson none [','] [':'] d v) = true
  | .null, _ => (by decide : noBreakChars ['n', 'u', 'l', 'l'] = true)
  | .boolean true, _ => (by decide : noBreakChars ['t', 'r', 'u', 'e'] = true)
  | .boolean false, _ => (by decide : noBreakChars ['f', 'a', 'l', 's', 'e'] = true)
  | .num n, _ => intToken_noBreak n
  | .str s, _ => encodeString_noBreak s
  | .arr [], _ => (by decide : noBreakChars ['[', ']'] = true)
  | .obj [], _ => (by decide : noBreakChars ['{', '}'] = true)
  | .arr (x :: xs), d => by
    rw [dumpJson]
    simp only [nlIndent_none, List.nil_append, List.append_nil]
    rw [noBreak_append, noBreak_append, noBreak_dumpElems (x :: xs) (d + 1)]
    decide
  | .obj (kv :: kvs), d => by
    rw [dumpJson]
    simp only [nlIndent_none, List.nil_append, List.append_nil]
    rw [noBreak_append, noBreak_append, noBreak_dumpMembers (kv :: kvs) (d + 1)]
    decide

theorem noBreak_dumpElems : ∀ (xs : List JValue) (d : Nat),
    noBreakChars (dumpElems none [','] [':'] d xs) = true
  | [], _ => (by decide : noBreakChars [] = true)
  | [x], d => by rw [dumpElems]; exact noBreak_dumpJson x d
  | x :: y :: ys, d => by
    rw [dumpElems]
    simp only [nlIndent_none, List.append_nil]
    rw [noBreak_append, noBreak_append, noBreak_dumpJson x d, noBreak_dumpElems (y :: ys) d]
    decide

theorem noBreak_dumpMembers : ∀ (kvs : List (Chars × JValue)) (d : Nat),
    noBreakChars (dumpMembers none [','] [':'] d kvs) = true
  | [], _ => (by decide : noBreakChars [] = true)
  | [(k, v)], d => by
    rw [dumpMembers]
    rw [noBreak_append, noBreak_append, encodeString_noBreak k, noBreak_dumpJson v d]
    decide
  | (k, v) :: kv :: kvs, d => by
    rw [dumpMembers]
    simp only [nlIndent_none, List.append_nil]
    rw [noBreak_append, noBreak_append, noBreak_append, noBreak_append,
      encodeString_noBreak k, noBreak_dumpJson v d, noBreak_dumpMembers (kv :: kvs) d]
    decide

end

theorem noNewline_of_noBreak (cs : Chars) (h : noBreakChars cs = true) :
    noNewline cs = true := by
  rw [noBreakChars, List.all_eq_true] at h
  rw [noNewline, List.all_eq_true]
  intro x hx
  have hx2 := h x hx
  by_cases he : x = '\n'
  · subst he
    simp [isNlChar] at hx2
  · simpa using he

/-! Scanner steps. -/

theorem scanStruct_false_cons (c : Char) (h1 : isPySpace c = false) (h2 : c ≠ '"')
    (r : Chars) : scanStruct false (c :: r) = scanStruct false r := by
  show (if isPySpace c then none
        else if c = '"' then scanStruct true r else scanStruct false r) = scanStruct false r
  rw [h1, if_neg h2]
  rfl

theorem scanStruct_false_quote (r : Chars) :
    scanStruct false ('"' :: r) = scanStruct true r := rfl

theorem scanStruct_true_plain (c : Char) (h1 : c ≠ '\\') (h2 : c ≠ '"') (r : Chars) :
    scanStruct true (c :: r) = scanStruct true r := by
  rw [scanStruct.eq_def]
  dsimp only
  rw [if_neg h1, if_neg h2]

theorem scanStruct_true_esc (c : Char) (r : Chars) :
    scanStruct true ('\\' :: c :: r) = scanStruct true r := by
  rw [scanStruct.eq_def]
  dsimp only
  rw [if_pos rfl]

theorem scanStruct_true_close (r : Chars) :
    scanStruct true ('"' :: r) = scanStruct false r := by
  rw [scanStruct.eq_def]
  dsimp only
  rw [if_neg (by decide), if_pos rfl]

theorem scan_false_all (cs : Chars) (h : ∀ x ∈ cs, isPySpace x = false ∧ x ≠ '"')
    (r : Chars) : scanStruct false (cs ++ r) = scanStruct false r := by
  induction cs with
  | nil => rfl
  | cons c t ih =>
    rw [List.cons_append,
      scanStruct_false_cons c (h c (by simp)).1 (h c (by simp)).2,
      ih fun x hx => h x (by simp [hx])]

theorem uEscape_scan (m : Nat) (r : Chars) :
    scanStruct true (('\\' :: 'u' :: hex4 m) ++ r) = scanStruct true r := by
  rw [hex4]
  show scanStruct true ('\\' :: 'u' :: _ :: _ :: _ :: _ :: r) = scanStruct true r
  rw [scanStruct_true_esc]
  rw [scanStruct_true_plain _ (hexDigitChar_facts _ (Nat.mod_lt _ (by norm_num))).2.2.2
    (hexDigitChar_facts _ (Nat.mod_lt _ (by norm_num))).2.2.1]
  rw [scanStruct_true_plain _ (hexDigitChar_facts _ (Nat.mod_lt _ (by norm_num))).2.2.2
    (hexDigitChar_facts _ (Nat.mod_lt _ (by norm_num))).2.2.1]
  rw [scanStruct_true_plain _ (hexDigitChar_facts _ (Nat.mod_lt _ (by norm_num))).2.2.2
    (hexDigitChar_facts _ (Nat.mod_lt _ (by norm_num))).2.2.1]
  rw [scanStruct_true_plain _ (hexDigitChar_facts _ (Nat.mod_lt _ (by norm_num))).2.2.2
    (hexDigitChar_facts _ (Nat.mod_lt _ (by norm_num))).2.2.1]

set_option maxHeartbeats 1000000 in
theorem escapeChar_scan (c : Char) (r : Chars) :
    scanStruct true (escapeChar c ++ r) = scanStruct true r := by
  rw [escapeChar]
  split_ifs with h1 h2 h3 h4 h5 h6 h7 h8 h9 h10
  · exact scanStruct_true_esc _ r
  · exact scanStruct_true_esc _ r
  · exact scanStruct_true_esc _ r
  · exact scanStruct_true_esc _ r
  · exact scanStruct_true_esc _ r
  · exact scanStruct_true_esc _ r
  · exact scanStruct_true_esc _ r
  · exact uEscape_scan _ r
  · rw [List.singleton_append, scanStruct_true_plain c h2 h1]
  · exact uEscape_scan _ r
  · rw [List.append_assoc, uEscape_scan _ _, uEscape_scan _ r]

theorem encodeStringBody_scan (s : Chars) (r : Chars) :
    scanStruct true (encodeStringBody s ++ r) = scanStruct true r := by
  induction s with
  | nil => rfl
  | cons c t ih =>
    rw [encodeStringBody, List.append_assoc, escapeChar_scan c _, ih]

theorem encodeString_scan (s : Chars) (r : Chars) :
    scanStruct false (encodeString s ++ r) = scanStruct false r := by
  rw [encodeString]
  show scanStruct false ('"' :: (encodeStringBody s ++ ['"'] ++ r)) = scanStruct false r
  rw [scanStruct_false_quote, List.append_assoc, encodeStringBody_scan,
    List.singleton_append, scanStruct_true_close]

theorem intToken_mem_facts (n : Int) :
    ∀ x ∈ intToken n, isPySpace x = false ∧ x ≠ '"' := by
  intro x hx
  rw [intToken] at hx
  have hdig : ∀ y ∈ natDigitsAux n.natAbs n.natAbs, isPySpace y = false ∧ y ≠ '"' := by
    intro y hy
    obtain ⟨k, hk, he⟩ := natDigitsAux_mem _ _ y hy
    subst he
    exact ⟨(digitChar_facts k hk).1, (digitChar_facts k hk).2.2.1⟩
  have hdig2 : ∀ y ∈ natDigitsAux (n.toNat + 1) n.toNat, isPySpace y = false ∧ y ≠ '"' := by
    intro y hy
    obtain ⟨k, hk, he⟩ := natDigitsAux_mem _ _ y hy
    subst he
    exact ⟨(digitChar_facts k hk).1, (digitChar_facts k hk).2.2.1⟩
  by_cases h : n < 0
  · rw [if_pos h] at hx
    rcases List.mem_cons.mp hx with he | hm
    · subst he; exact ⟨rfl, by decide⟩
    · exact hdig x hm
  · rw [if_neg h] at hx
    exact hdig2 x hx

mutual

theorem scan_dumpJson : ∀ (v : JValue) (d : Nat) (r : Chars),
    scanStruct false (dumpJson none [','] [':'] d v ++ r) = scanStruct false r
  | .null, _, r => scan_false_all ['n', 'u', 'l', 'l'] (by decide) r
  | .boolean true, _, r => scan_false_all ['t', 'r', 'u', 'e'] (by decide) r
  | .boolean false, _, r => scan_false_all ['f', 'a', 'l', 's', 'e'] (by decide) r
  | .num n, _, r => scan_false_all (intToken n) (intToken_mem_facts n) r
  | .str s, _, r => encodeString_scan s r
  | .arr [], _, r => scan_false_all ['[', ']'] (by decide) r
  | .obj [], _, r => scan_false_all ['{', '}'] (by decide) r
  | .arr (x :: xs), d, r => by
    rw [dumpJson]
    simp only [nlIndent_none, List.nil_append, List.cons_append, List.append_assoc,
      List.singleton_append]
    rw [scanStruct_false_cons '[' rfl (by decide),
      scan_dumpElems (x :: xs) (d + 1) _,
      scanStruct_false_cons ']' rfl (by decide)]
  | .obj (kv :: kvs), d, r => by
    rw [dumpJson]
    simp only [nlIndent_none, List.nil_append, List.cons_append, List.append_assoc,
      List.singleton_append]
    rw [scanStruct_false_cons '{' rfl (by decide),
      scan_dumpMembers (kv :: kvs) (d + 1) _,
      scanStruct_false_cons '}' rfl (by decide)]

theorem scan_dumpElems : ∀ (xs : List JValue) (d : Nat) (r : Chars),
    scanStruct false (dumpElems none [','] [':'] d xs ++ r) = scanStruct false r
  | [], _, _ => rfl
  | [x], d, r => by
    rw [dumpElems]
    exact scan_dumpJson x d r
  | x :: y :: ys, d, r => by
    rw [dumpElems]
    simp only [nlIndent_none, List.append_nil, List.nil_append, List.append_assoc,
      List.singleton_append, List.cons_append]
    rw [scan_dumpJson x d _,
      scanStruct_false_cons ',' (by decide) (by decide),
      scan_dumpElems (y :: ys) d r]

theorem scan_dumpMembers : ∀ (kvs : List (Chars × JValue)) (d : Nat) (r : Chars),
    scanStruct false (dumpMembers none [','] [':'] d kvs ++ r) = scanStruct false r
  | [], _, _ => rfl
  | [(k, v)], d, r => by
    rw [dumpMembers]
    simp only [List.append_assoc, List.nil_append, List.singleton_append, List.cons_append]
    rw [encodeString_scan k _,
      scanStruct_false_cons ':' (by decide) (by decide),
      scan_dumpJson v d r]
  | (k, v) :: kv :: kvs, d, r => by
    rw [dumpMembers]
    simp only [nlIndent_none, List.append_nil, List.nil_append, List.append_assoc,
      List.singleton_append, List.cons_append]
    rw [encodeString_scan k _,
      scanStruct_false_cons ':' (by decide) (by decide),
      scan_dumpJson v d _,
      scanStruct_false_cons ',' (by decide) (by decide),
      scan_dumpMembers (kv :: kvs) d r]

end

theorem noStruct_dumpCompact (v : JValue) (d : Nat) :
    noStructuralWs (dumpJson none [','] [':'] d v) = true := by
  rw [noStructuralWs]
  have h := scan_dumpJson v d []
  rw [List.append_nil] at h
  rw [h]
  rfl

theorem noNewline_dumpCompact (v : JValue) (d : Nat) :
    noNewline (dumpJson none [','] [':'] d v) = true :=
  noNewline_of_noBreak _ (noBreak_dumpJson v d)

/-- Claim C8: minifying `" { \"a\" : 1 } "` yields exactly `{"a":1}`; and for
every valid JSON input, `minifiedJson` produces exactly the compact
serialization (`json.dumps` with separators `(',', ':')` and no indent),
which contains no newline and no structural whitespace (no whitespace
outside string literals) — because compact-separator formatting is followed
by per-line stripping of line breaks and leading whitespace. -/
theorem c8_minify (s : Chars) (v : JValue) (h : jsonLoadsCs s = some v) :
    minifiedJson true 2 " \x7b \"a\" : 1 \x7d ".data = .ok (some "\x7b\"a\":1\x7d".data) ∧
    minifiedJson true 2 s = .ok (some (dumpJson none [','] [':'] 0 v)) ∧
    noNewline (dumpJson none [','] [':'] 0 v) = true ∧
    noStructuralWs (dumpJson none [','] [':'] 0 v) = true := by
  refine ⟨rfl, ?_, noNewline_dumpCompact v 0, noStruct_dumpCompact v 0⟩
  have hval : isValidJ true (.str s) = true := by
    cases s with
    | nil =>
      rw [show jsonLoadsCs [] = none from rfl] at h
      cases h
    | cons c r0 =>
      rw [isValidJ.eq_def]
      dsimp only
      rw [h]
      rfl
  have hfmt : formatJ true 2 (some ([','], [':'])) (.str s) =
      .ok (some (dumpJson (some 2) [','] [':'] 0 v)) := by
    rw [formatJ, hval, if_pos rfl]
    dsimp only
    rw [h]
    rfl
  rw [minifiedJson, hfmt]
  dsimp only
  rw [pipeline_eq_mLead, mLead_eq_mCopy _ (headNonspace_dumpJson (some 2) [','] [':'] 0 v)]
  have h2 := mCopy_dumpJson v 2 0 []
  rw [List.append_nil] at h2
  rw [h2, show mCopy [] = [] from rfl, List.append_nil]

/-- Witness for C8 at the claim input itself. -/
theorem c8_witness :
    jsonLoadsCs " \x7b \"a\" : 1 \x7d ".data = some (.obj [(['a'], .num 1)]) ∧
    (minifiedJson true 2 " \x7b \"a\" : 1 \x7d ".data = .ok (some "\x7b\"a\":1\x7d".data) ∧
     minifiedJson true 2 " \x7b \"a\" : 1 \x7d ".data =
       .ok (some (dumpJson none [','] [':'] 0 (.obj [(['a'], .num 1)]))) ∧
     noNewline (dumpJson none [','] [':'] 0 (.obj [(['a'], .num 1)])) = true ∧
     noStructuralWs (dumpJson none [','] [':'] 0 (.obj [(['a'], .num 1)])) = true) :=
  ⟨rfl, c8_minify " \x7b \"a\" : 1 \x7d ".data (.obj [(['a'], .num 1)]) rfl⟩
